import Mathlib

/-!
A shallow embedding of the `rtrb` SPSC ring buffer (`src/lib.rs`).

The Rust crate splits a `RingBuffer<T>` (shared atomics `head`, `tail` and the
slot storage) into a `Producer<T>` (with a private cached copy of `head` and an
always-in-sync copy of `tail`) and a `Consumer<T>` (symmetric).  Since exactly
one thread owns each endpoint, the sequential semantics of every operation is
captured by one combined state record holding the shared fields and both
endpoints' caches.  Atomic loads/stores become plain reads/writes of the
record; the Acquire/Release orderings themselves have no sequential content.

The storage of `capacity` possibly-uninitialized slots is modelled as a total
function `Nat → Option T`: `some v` is an initialized slot holding `v`, `none`
is a logically uninitialized slot.  `ptr.write(v)` becomes a function update to
`some v`; `ptr.read()` (which *moves* the value out, leaving the slot logically
uninitialized) yields the stored `Option T` and resets the slot to `none`;
`drop_in_place` resets a slot to `none`.  Reading an uninitialized slot (which
would be undefined behaviour in Rust) surfaces as a `none` result; the queue
invariant proves this never happens.

Functions that can panic (the `assert!` in the chunk `commit` methods) return
`Option`: `none` models the panic.
-/

namespace Rtrb

/-- Error type for `Producer::push()` (`PushError` in `src/lib.rs`).
`Full` carries the value that could not be stored. -/
inductive PushError (T : Type) where
  | Full (value : T)
deriving DecidableEq, Repr

/-- Error type for `Consumer::pop()` (`PopError` in `src/lib.rs`). -/
inductive PopError where
  | Empty
deriving DecidableEq, Repr

/-- Error type for `Consumer::peek()` (`PeekError` in `src/lib.rs`). -/
inductive PeekError where
  | Empty
deriving DecidableEq, Repr

/-- Error type for the chunk-requesting methods (`ChunkError` in `src/lib.rs`).
Carries the number of slots that were available. -/
inductive ChunkError where
  | TooFewSlots (n : Nat)
deriving DecidableEq, Repr

/-- Combined sequential state of `RingBuffer<T>`, `Producer<T>` and
`Consumer<T>`:

* `capacity` — `RingBuffer.capacity`;
* `head`, `tail` — the shared atomics `RingBuffer.head` / `RingBuffer.tail`,
  integers in `0 .. 2 * capacity`;
* `data` — the slot storage `data_ptr`; slot `i` (for `i < capacity`) holds
  `some v` when initialized with `v` and `none` when uninitialized;
* `phead` — `Producer.head`, the producer's possibly stale cached copy of
  `head`;
* `ptail` — `Producer.tail`, always in sync with `tail`;
* `chead` — `Consumer.head`, always in sync with `head`;
* `ctail` — `Consumer.tail`, the consumer's possibly stale cached copy of
  `tail`. -/
structure State (T : Type) where
  capacity : Nat
  head : Nat
  tail : Nat
  data : Nat → Option T
  phead : Nat
  ptail : Nat
  chead : Nat
  ctail : Nat

/-- `RingBuffer::collapse_position`: wraps a position from the range
`0 .. 2 * capacity` to `0 .. capacity`. -/
def collapse_position (capacity pos : Nat) : Nat :=
  if pos < capacity then pos else pos - capacity

/-- `RingBuffer::increment`: increments a position by going `n` slots forward
(callers guarantee `n ≤ capacity`). -/
def increment (capacity pos n : Nat) : Nat :=
  let threshold := 2 * capacity - n
  if pos < threshold then pos + n else pos - threshold

/-- `RingBuffer::increment1`: increments a position by going one slot forward
(callers guarantee `capacity ≠ 0`). -/
def increment1 (capacity pos : Nat) : Nat :=
  if pos < 2 * capacity - 1 then pos + 1 else 0

/-- `RingBuffer::distance`: the distance between two positions. -/
def distance (capacity a b : Nat) : Nat :=
  if a ≤ b then b - a else 2 * capacity - a + b

/-- `RingBuffer::new(capacity)` immediately followed by `split()`: all slots
uninitialized, `head = tail = 0`, and both endpoints' caches start at `0`. -/
def new (T : Type) (capacity : Nat) : State T :=
  { capacity := capacity
    head := 0
    tail := 0
    data := fun _ => none
    phead := 0
    ptail := 0
    chead := 0
    ctail := 0 }

/-- `Producer::next_tail`: the tail position for writing the next slot, if
available.  Returns the state because the check may refresh the producer's
cached `head` (a `Cell` write in the source). -/
def next_tail {T : Type} (s : State T) : State T × Option Nat :=
  let tail := s.ptail
  if distance s.capacity s.phead tail = s.capacity then
    let head := s.head
    let s1 := { s with phead := head }
    if distance s1.capacity head tail = s1.capacity then
      (s1, none)
    else
      (s1, some tail)
  else
    (s, some tail)

/-- `Producer::push`: writes `value` into the slot at the collapsed tail
position, then advances `tail` by one (Release store in the source). -/
def push {T : Type} (s : State T) (value : T) :
    State T × Except (PushError T) Unit :=
  match next_tail s with
  | (s1, some tail) =>
      let s2 := { s1 with
        data := Function.update s1.data (collapse_position s1.capacity tail) (some value) }
      let tail1 := increment1 s2.capacity tail
      ({ s2 with tail := tail1, ptail := tail1 }, Except.ok ())
  | (s1, none) => (s1, Except.error (PushError.Full value))

/-- `Producer::is_full`. -/
def is_full {T : Type} (s : State T) : State T × Bool :=
  match next_tail s with
  | (s1, o) => (s1, o.isNone)

/-- `Producer::slots`: always refreshes the cached `head` (Acquire load in the
source) and returns `capacity - distance(head, tail)`. -/
def producer_slots {T : Type} (s : State T) : State T × Nat :=
  let head := s.head
  let s1 := { s with phead := head }
  (s1, s1.capacity - distance s1.capacity head s1.ptail)

/-- `WriteChunkMaybeUninit<'a, T>` without its raw pointers: the pointers are
recovered from the borrowed producer's state (`first_ptr` is
`data_ptr + collapse_position(tail)` and `second_ptr` is `data_ptr`, and the
producer's `tail` cannot change while the chunk borrows the producer). -/
structure WriteChunkMaybeUninit where
  first_len : Nat
  second_len : Nat
  iterated : Nat
deriving DecidableEq, Repr

/-- `WriteChunkMaybeUninit::len`. -/
def WriteChunkMaybeUninit.len (ch : WriteChunkMaybeUninit) : Nat :=
  ch.first_len + ch.second_len

/-- The success continuation of `Producer::write_chunk_maybe_uninit`
(`src/lib.rs` lines 383–392): the chunk geometry computed from the current
tail. -/
def mk_write_chunk {T : Type} (s : State T) (n : Nat) : WriteChunkMaybeUninit :=
  let tail := collapse_position s.capacity s.ptail
  let first_len := min n (s.capacity - tail)
  { first_len := first_len, second_len := n - first_len, iterated := 0 }

/-- `Producer::write_chunk_maybe_uninit`. -/
def write_chunk_maybe_uninit {T : Type} (s : State T) (n : Nat) :
    State T × Except ChunkError WriteChunkMaybeUninit :=
  if s.capacity - distance s.capacity s.phead s.ptail < n then
    let head := s.head
    let s1 := { s with phead := head }
    let slots := s1.capacity - distance s1.capacity head s1.ptail
    if slots < n then
      (s1, Except.error (ChunkError.TooFewSlots slots))
    else
      (s1, Except.ok (mk_write_chunk s1 n))
  else
    (s, Except.ok (mk_write_chunk s n))

/-- Writing the caller's values `vs` into a write chunk's two regions (the
writes performed through `as_mut_slices()`, e.g. the two
`copy_nonoverlapping` calls of the byte adapter, or the `Default` fill of
`WriteChunk::from`).  Region one is `vs[0] .. vs[first_len-1]` at slots
`collapse_position(tail) + i`, region two is the next `second_len` values at
slots `0 ..`.  Call sites always supply at least `first_len + second_len`
values, so the out-of-range `none` case never materializes. -/
def write_into_chunk {T : Type} (s : State T) (ch : WriteChunkMaybeUninit)
    (vs : List T) : State T :=
  let start := collapse_position s.capacity s.ptail
  { s with data := fun i =>
      if start ≤ i ∧ i < start + ch.first_len then vs[i - start]?
      else if i < ch.second_len then vs[ch.first_len + i]?
      else s.data i }

/-- `WriteChunkMaybeUninit::commit_unchecked`: advances `tail` by `n`
(Release store in the source). -/
def WriteChunkMaybeUninit.commit_unchecked {T : Type} (s : State T)
    (_ch : WriteChunkMaybeUninit) (n : Nat) : State T :=
  let tail := increment s.capacity s.ptail n
  { s with tail := tail, ptail := tail }

/-- `WriteChunkMaybeUninit::commit`: `assert!(n <= self.len())`, then
`commit_unchecked`.  `none` models the assertion failure (a panic). -/
def WriteChunkMaybeUninit.commit {T : Type} (s : State T)
    (ch : WriteChunkMaybeUninit) (n : Nat) : Option (State T) :=
  if n ≤ ch.len then some (ch.commit_unchecked s n) else none

/-- `WriteChunkMaybeUninit::commit_iterated`. -/
def WriteChunkMaybeUninit.commit_iterated {T : Type} (s : State T)
    (ch : WriteChunkMaybeUninit) : State T :=
  ch.commit_unchecked s ch.iterated

/-- `WriteChunkMaybeUninit::commit_all`. -/
def WriteChunkMaybeUninit.commit_all {T : Type} (s : State T)
    (ch : WriteChunkMaybeUninit) : State T :=
  ch.commit_unchecked s ch.len

/-- One call of `<WriteChunkMaybeUninit as Iterator>::next`.  The source
yields a pointer to the `iterated`-th chunk element (from the first region
while `iterated < first_len`, then from the second); the model returns that
chunk-relative index. -/
def WriteChunkMaybeUninit.next (ch : WriteChunkMaybeUninit) :
    Option Nat × WriteChunkMaybeUninit :=
  if ch.iterated < ch.first_len then
    (some ch.iterated, { ch with iterated := ch.iterated + 1 })
  else if ch.iterated < ch.first_len + ch.second_len then
    (some ch.iterated, { ch with iterated := ch.iterated + 1 })
  else
    (none, ch)

/-- `k` successive calls of `next` on a write chunk. -/
def WriteChunkMaybeUninit.iterN :
    Nat → WriteChunkMaybeUninit → WriteChunkMaybeUninit
  | 0, ch => ch
  | k + 1, ch => WriteChunkMaybeUninit.iterN k ch.next.2

/-- `WriteChunk<'a, T>` — the safe, `Default`-filled wrapper around
`WriteChunkMaybeUninit` (a tuple struct in the source). -/
structure WriteChunk where
  inner : WriteChunkMaybeUninit
deriving DecidableEq, Repr

/-- `Producer::write_chunk`: calls `write_chunk_maybe_uninit` and fills every
slot of the chunk with the `Default` value `dflt`
(`<WriteChunk as From<WriteChunkMaybeUninit>>::from`). -/
def write_chunk {T : Type} (s : State T) (n : Nat) (dflt : T) :
    State T × Except ChunkError WriteChunk :=
  match write_chunk_maybe_uninit s n with
  | (s1, Except.ok ch) =>
      (write_into_chunk s1 ch (List.replicate ch.len dflt), Except.ok ⟨ch⟩)
  | (s1, Except.error e) => (s1, Except.error e)

/-- `WriteChunk::commit` (delegates to the inner chunk's checked commit). -/
def WriteChunk.commit {T : Type} (s : State T) (ch : WriteChunk) (n : Nat) :
    Option (State T) :=
  ch.inner.commit s n

/-- `WriteChunk::commit_iterated`. -/
def WriteChunk.commit_iterated {T : Type} (s : State T) (ch : WriteChunk) :
    State T :=
  ch.inner.commit_iterated s

/-- `WriteChunk::commit_all`. -/
def WriteChunk.commit_all {T : Type} (s : State T) (ch : WriteChunk) :
    State T :=
  ch.inner.commit_all s

/-- `Consumer::next_head`: the head position for reading the next slot, if
available.  May refresh the consumer's cached `tail`. -/
def next_head {T : Type} (s : State T) : State T × Option Nat :=
  let head := s.chead
  if head = s.ctail then
    let tail := s.tail
    let s1 := { s with ctail := tail }
    if head = tail then
      (s1, none)
    else
      (s1, some head)
  else
    (s, some head)

/-- `Consumer::pop`: moves the value out of the slot at the collapsed head
position (leaving it logically uninitialized), then advances `head` by one
(Release store in the source).  A `some` payload is the moved value; `none`
would be a read of an uninitialized slot, which the invariant excludes. -/
def pop {T : Type} (s : State T) : State T × Except PopError (Option T) :=
  match next_head s with
  | (s1, some head) =>
      let value := s1.data (collapse_position s1.capacity head)
      let s2 := { s1 with
        data := Function.update s1.data (collapse_position s1.capacity head) none }
      let head1 := increment1 s2.capacity head
      ({ s2 with head := head1, chead := head1 }, Except.ok value)
  | (s1, none) => (s1, Except.error PopError.Empty)

/-- `Consumer::peek`: reads the slot at the collapsed head position without
removing it. -/
def peek {T : Type} (s : State T) : State T × Except PeekError (Option T) :=
  match next_head s with
  | (s1, some head) =>
      (s1, Except.ok (s1.data (collapse_position s1.capacity head)))
  | (s1, none) => (s1, Except.error PeekError.Empty)

/-- `Consumer::is_empty`. -/
def is_empty {T : Type} (s : State T) : State T × Bool :=
  match next_head s with
  | (s1, o) => (s1, o.isNone)

/-- `Consumer::slots`: always refreshes the cached `tail` (Acquire load in
the source) and returns `distance(head, tail)`. -/
def consumer_slots {T : Type} (s : State T) : State T × Nat :=
  let tail := s.tail
  let s1 := { s with ctail := tail }
  (s1, distance s1.capacity s1.chead tail)

/-- `ReadChunk<'a, T>` without its raw pointers (recovered from the borrowed
consumer's state, symmetric to `WriteChunkMaybeUninit`). -/
structure ReadChunk where
  first_len : Nat
  second_len : Nat
  iterated : Nat
deriving DecidableEq, Repr

/-- `ReadChunk::len`. -/
def ReadChunk.len (ch : ReadChunk) : Nat :=
  ch.first_len + ch.second_len

/-- The success continuation of `Consumer::read_chunk` (`src/lib.rs` lines
677–686): the chunk geometry computed from the current head. -/
def mk_read_chunk {T : Type} (s : State T) (n : Nat) : ReadChunk :=
  let head := collapse_position s.capacity s.chead
  let first_len := min n (s.capacity - head)
  { first_len := first_len, second_len := n - first_len, iterated := 0 }

/-- `Consumer::read_chunk`. -/
def read_chunk {T : Type} (s : State T) (n : Nat) :
    State T × Except ChunkError ReadChunk :=
  if distance s.capacity s.chead s.ctail < n then
    let tail := s.tail
    let s1 := { s with ctail := tail }
    let slots := distance s1.capacity s1.chead tail
    if slots < n then
      (s1, Except.error (ChunkError.TooFewSlots slots))
    else
      (s1, Except.ok (mk_read_chunk s1 n))
  else
    (s, Except.ok (mk_read_chunk s n))

/-- `ReadChunk::as_slices`: the contents of the two regions.  The source
returns `&[T]` slices of initialized slots; the model reads the `Option T`
contents (all `some` whenever the chunk came from `read_chunk` on a state
satisfying the representation invariant). -/
def ReadChunk.as_slices {T : Type} (s : State T) (ch : ReadChunk) :
    List (Option T) × List (Option T) :=
  ((List.range ch.first_len).map
      (fun i => s.data (collapse_position s.capacity s.chead + i)),
   (List.range ch.second_len).map (fun i => s.data i))

/-- `ReadChunk::commit_unchecked`: drops (`drop_in_place`) the first
`min(first_len, n)` slots of the first region and the first
`min(second_len, n - ...)` slots of the second region, then advances `head`
by `n` (Release store in the source). -/
def ReadChunk.commit_unchecked {T : Type} (s : State T) (ch : ReadChunk)
    (n : Nat) : State T :=
  let head := s.chead
  let start := collapse_position s.capacity head
  let first_len := min ch.first_len n
  let second_len := min ch.second_len (n - first_len)
  let data := fun i =>
    if start ≤ i ∧ i < start + first_len then none
    else if i < second_len then none
    else s.data i
  let head1 := increment s.capacity head n
  { s with head := head1, chead := head1, data := data }

/-- `ReadChunk::commit`: `assert!(n <= self.len())`, then `commit_unchecked`.
`none` models the assertion failure (a panic). -/
def ReadChunk.commit {T : Type} (s : State T) (ch : ReadChunk) (n : Nat) :
    Option (State T) :=
  if n ≤ ch.len then some (ch.commit_unchecked s n) else none

/-- `ReadChunk::commit_iterated`. -/
def ReadChunk.commit_iterated {T : Type} (s : State T) (ch : ReadChunk) :
    State T :=
  ch.commit_unchecked s ch.iterated

/-- `ReadChunk::commit_all`. -/
def ReadChunk.commit_all {T : Type} (s : State T) (ch : ReadChunk) : State T :=
  ch.commit_unchecked s ch.len

/-- One call of `<ReadChunk as Iterator>::next` (returns the chunk-relative
index of the yielded element). -/
def ReadChunk.next (ch : ReadChunk) : Option Nat × ReadChunk :=
  if ch.iterated < ch.first_len then
    (some ch.iterated, { ch with iterated := ch.iterated + 1 })
  else if ch.iterated < ch.first_len + ch.second_len then
    (some ch.iterated, { ch with iterated := ch.iterated + 1 })
  else
    (none, ch)

/-- `k` successive calls of `next` on a read chunk. -/
def ReadChunk.iterN : Nat → ReadChunk → ReadChunk
  | 0, ch => ch
  | k + 1, ch => ReadChunk.iterN k ch.next.2

/-- The element type of the byte-stream adapters (`u8`). -/
abbrev Byte : Type := Fin 256

/-- The would-block error the byte adapters build from a `ChunkError`
(`std::io::Error` with kind `WouldBlock`). -/
inductive IoError where
  | wouldBlock
deriving DecidableEq, Repr

/-- `<Producer<u8> as std::io::Write>::write`: requests a chunk of
`buf.len()` slots, retrying with the available count `n` when
`TooFewSlots(n)` with `n > 0`; copies `buf` into the chunk's two regions and
commits the whole chunk, returning the number of bytes written. -/
def io_write (s : State Byte) (buf : List Byte) :
    State Byte × Except IoError Nat :=
  match write_chunk_maybe_uninit s buf.length with
  | (s1, Except.ok ch) =>
      let s2 := write_into_chunk s1 ch buf
      (ch.commit_all s2, Except.ok ch.len)
  | (s1, Except.error (ChunkError.TooFewSlots n)) =>
      if 0 < n then
        match write_chunk_maybe_uninit s1 n with
        | (s2, Except.ok ch) =>
            let s3 := write_into_chunk s2 ch buf
            (ch.commit_all s3, Except.ok ch.len)
        | (s2, Except.error _) => (s2, Except.error IoError.wouldBlock)
      else
        (s1, Except.error IoError.wouldBlock)

/-- `<Consumer<u8> as std::io::Read>::read` for a caller buffer of length
`len`: requests a chunk of `len` slots, retrying with the available count
`n` when `TooFewSlots(n)` with `n > 0`; copies the chunk's two regions out
(returned as the list of bytes read) and commits the whole chunk. -/
def io_read (s : State Byte) (len : Nat) :
    State Byte × Except IoError (List (Option Byte)) :=
  match read_chunk s len with
  | (s1, Except.ok ch) =>
      let out := (ch.as_slices s1).1 ++ (ch.as_slices s1).2
      (ch.commit_all s1, Except.ok out)
  | (s1, Except.error (ChunkError.TooFewSlots n)) =>
      if 0 < n then
        match read_chunk s1 n with
        | (s2, Except.ok ch) =>
            let out := (ch.as_slices s2).1 ++ (ch.as_slices s2).2
            (ch.commit_all s2, Except.ok out)
        | (s2, Except.error _) => (s2, Except.error IoError.wouldBlock)
      else
        (s1, Except.error IoError.wouldBlock)

/-- Pushing a list of values one by one, collecting each `push` result. -/
def pushAll {T : Type} (s : State T) :
    List T → State T × List (Except (PushError T) Unit)
  | [] => (s, [])
  | x :: rest =>
      let p := push s x
      let q := pushAll p.1 rest
      (q.1, p.2 :: q.2)

/-- Popping `n` times, collecting each `pop` result. -/
def popN {T : Type} (s : State T) :
    Nat → State T × List (Except PopError (Option T))
  | 0 => (s, [])
  | n + 1 =>
      let p := pop s
      let q := popN p.1 n
      (q.1, p.2 :: q.2)

/-- One queue operation, for quantifying over arbitrary
operation sequences.  `writeCommit n k vs` requests a write chunk of size
`n`, writes `vs` into it and commits `k` slots (committing nothing when the
request failed, or when `k` exceeds the chunk length and `commit` would
panic); `writeDrop` / `readDrop` request a chunk and drop it uncommitted. -/
inductive Op (T : Type) where
  | push (v : T)
  | pop
  | peek
  | isFull
  | isEmpty
  | pslots
  | cslots
  | writeCommit (n k : Nat) (vs : List T)
  | writeDrop (n : Nat) (dflt : T)
  | readCommit (n k : Nat)
  | readDrop (n : Nat)

/-- The state reached by running one operation. -/
def applyOp {T : Type} (s : State T) : Op T → State T
  | Op.push v => (push s v).1
  | Op.pop => (pop s).1
  | Op.peek => (peek s).1
  | Op.isFull => (is_full s).1
  | Op.isEmpty => (is_empty s).1
  | Op.pslots => (producer_slots s).1
  | Op.cslots => (consumer_slots s).1
  | Op.writeCommit n k vs =>
      match write_chunk_maybe_uninit s n with
      | (s1, Except.ok ch) =>
          let s2 := write_into_chunk s1 ch vs
          if k ≤ ch.len then ch.commit_unchecked s2 k else s2
      | (s1, Except.error _) => s1
  | Op.writeDrop n dflt => (write_chunk s n dflt).1
  | Op.readCommit n k =>
      match read_chunk s n with
      | (s1, Except.ok ch) =>
          if k ≤ ch.len then ch.commit_unchecked s1 k else s1
      | (s1, Except.error _) => s1
  | Op.readDrop n => (read_chunk s n).1

/-- The inductive state invariant: positions stay in `0 .. 2 * capacity`
(everything pinned to `0` when `capacity = 0`), the producer's `ptail` and
consumer's `chead` are in sync with the shared indices, at most `capacity`
slots are filled, and each endpoint's cached copy of the peer index is
conservative (the producer's cached `head` never claims more free space than
there is; the consumer's cached `tail` never claims more data than there
is). -/
structure Inv {T : Type} (s : State T) : Prop where
  ptail_eq : s.ptail = s.tail
  chead_eq : s.chead = s.head
  zero : s.capacity = 0 → s.head = 0 ∧ s.tail = 0 ∧ s.phead = 0 ∧ s.ctail = 0
  head_lt : 0 < s.capacity → s.head < 2 * s.capacity
  tail_lt : 0 < s.capacity → s.tail < 2 * s.capacity
  phead_lt : 0 < s.capacity → s.phead < 2 * s.capacity
  ctail_lt : 0 < s.capacity → s.ctail < 2 * s.capacity
  dist_le : distance s.capacity s.head s.tail ≤ s.capacity
  dist_phead : distance s.capacity s.head s.tail ≤ distance s.capacity s.phead s.tail
  phead_le : distance s.capacity s.phead s.tail ≤ s.capacity
  ctail_le : distance s.capacity s.head s.ctail ≤ distance s.capacity s.head s.tail

/-- `Rep s l`: the queue currently holds exactly the elements of `l`, in FIFO
order — the `j`-th pending element sits (initialized) in the slot
`collapse_position (increment head j)`. -/
def Rep {T : Type} (s : State T) (l : List T) : Prop :=
  distance s.capacity s.head s.tail = l.length ∧
  ∀ j, j < l.length →
    s.data (collapse_position s.capacity (increment s.capacity s.head j)) = l[j]?

/-! ### Arithmetic facts about the position encoding

All positions live in the doubled range `0 .. 2 * capacity`; `distance`,
`increment`, `increment1` and `collapse_position` are the source's branchy
versions of arithmetic modulo `2 * capacity` (respectively modulo `capacity`
for `collapse_position`).  The lemmas below are stated under the range
hypotheses that the queue invariant provides. -/

theorem collapse_lt (c p : Nat) (hc : 0 < c) (hp : p < 2 * c) :
    collapse_position c p < c := by
  simp only [collapse_position]
  split <;> omega

theorem increment_lt (c p n : Nat) (hc : 0 < c) (hp : p < 2 * c) (hn : n ≤ c) :
    increment c p n < 2 * c := by
  simp only [increment]
  split <;> omega

theorem increment1_lt (c p : Nat) (hp : p < 2 * c) : increment1 c p < 2 * c := by
  simp only [increment1]
  split <;> omega

theorem increment1_eq (c p : Nat) (hc : 0 < c) (hp : p < 2 * c) :
    increment1 c p = increment c p 1 := by
  simp only [increment1, increment]
  split_ifs <;> omega

theorem increment_zero (c p : Nat) (hp : p < 2 * c) : increment c p 0 = p := by
  simp only [increment]
  split <;> omega

theorem increment_increment (c p i j : Nat) (hp : p < 2 * c) (hij : i + j ≤ c) :
    increment c (increment c p i) j = increment c p (i + j) := by
  simp only [increment]
  split_ifs <;> omega

theorem distance_lt (c a b : Nat) (hc : 0 < c) (ha : a < 2 * c)
    (hb : b < 2 * c) : distance c a b < 2 * c := by
  simp only [distance]
  split <;> omega

theorem distance_eq_zero (c a b : Nat) (ha : a < 2 * c) (hb : b < 2 * c) :
    distance c a b = 0 ↔ a = b := by
  simp only [distance]
  split <;> omega

theorem distance_increment_right (c a b n : Nat) (ha : a < 2 * c)
    (hb : b < 2 * c) (hn : n ≤ c) (h : distance c a b + n < 2 * c) :
    distance c a (increment c b n) = distance c a b + n := by
  simp only [distance, increment] at *
  split_ifs at * <;> omega

theorem distance_increment_left (c a b n : Nat) (ha : a < 2 * c)
    (hb : b < 2 * c) (hn : n ≤ c) (h : n ≤ distance c a b) :
    distance c (increment c a n) b = distance c a b - n := by
  simp only [distance, increment] at *
  split_ifs at * <;> omega

theorem increment_of_distance (c a b : Nat) (ha : a < 2 * c) (hb : b < 2 * c)
    (h : distance c a b ≤ c) : increment c a (distance c a b) = b := by
  simp only [distance, increment] at *
  split_ifs at * <;> omega

theorem slot_inj (c p i j : Nat) (hp : p < 2 * c) (hi : i < c) (hj : j < c)
    (h : collapse_position c (increment c p i) =
      collapse_position c (increment c p j)) : i = j := by
  simp only [collapse_position, increment] at h
  split_ifs at h <;> omega

theorem region1_slot (c t n i : Nat) (ht : t < 2 * c)
    (hi : i < min n (c - collapse_position c t)) :
    collapse_position c t + i = collapse_position c (increment c t i) := by
  simp only [collapse_position, increment] at *
  split_ifs at * <;> omega

theorem region2_slot (c t n j : Nat) (ht : t < 2 * c) (hn : n ≤ c)
    (hfl : min n (c - collapse_position c t) ≤ j) (hj : j < n) :
    collapse_position c (increment c t j) =
      j - min n (c - collapse_position c t) := by
  simp only [collapse_position, increment] at *
  split_ifs at * <;> omega

/-! ### Shape lemmas for `push` and `pop`

Each operation is characterized by a case split on the queue's fill level.
The conclusions spell out the exact successor state the code computes. -/

theorem next_tail_full {T : Type} {s : State T} (h : Inv s)
    (hfull : distance s.capacity s.head s.tail = s.capacity) :
    next_tail s = ({ s with phead := s.head }, none) := by
  have hdp := h.dist_phead
  have hpl := h.phead_le
  simp only [next_tail, h.ptail_eq]
  have g1 : distance s.capacity s.phead s.tail = s.capacity := by omega
  rw [if_pos g1, if_pos hfull]

theorem next_tail_not_full {T : Type} {s : State T} (h : Inv s)
    (hnf : distance s.capacity s.head s.tail < s.capacity) :
    next_tail s =
      ((if distance s.capacity s.phead s.tail = s.capacity then
          { s with phead := s.head }
        else s), some s.tail) := by
  simp only [next_tail, h.ptail_eq]
  by_cases g1 : distance s.capacity s.phead s.tail = s.capacity
  · simp only [g1, if_true, eq_self_iff_true]
    rw [if_neg (show ¬distance s.capacity s.head s.tail = s.capacity by omega)]
  · simp only [if_neg g1]

theorem push_eq_of_full {T : Type} {s : State T} {v : T} (h : Inv s)
    (hfull : distance s.capacity s.head s.tail = s.capacity) :
    push s v = ({ s with phead := s.head }, Except.error (PushError.Full v)) := by
  simp only [push, next_tail_full h hfull]

theorem push_eq_of_not_full {T : Type} {s : State T} {v : T} (h : Inv s)
    (hnf : distance s.capacity s.head s.tail < s.capacity) :
    push s v =
      ({ s with
          phead :=
            if distance s.capacity s.phead s.tail = s.capacity then s.head
            else s.phead
          data :=
            Function.update s.data (collapse_position s.capacity s.tail) (some v)
          tail := increment1 s.capacity s.tail
          ptail := increment1 s.capacity s.tail }, Except.ok ()) := by
  simp only [push, next_tail_not_full h hnf]
  split_ifs with g1
  · rfl
  · rfl

theorem next_head_empty {T : Type} {s : State T} (h : Inv s)
    (he : distance s.capacity s.head s.tail = 0) :
    next_head s = ({ s with ctail := s.tail }, none) := by
  have hct : s.chead = s.ctail := by
    rcases Nat.eq_zero_or_pos s.capacity with h0 | hpos
    · obtain ⟨h1, _, _, h4⟩ := h.zero h0
      rw [h.chead_eq, h1, h4]
    · have hcl := h.ctail_le
      have h2 := (distance_eq_zero s.capacity s.head s.ctail (h.head_lt hpos)
        (h.ctail_lt hpos)).mp (by omega)
      rw [h.chead_eq, h2]
  have hht : s.chead = s.tail := by
    rcases Nat.eq_zero_or_pos s.capacity with h0 | hpos
    · obtain ⟨h1, h2, _, _⟩ := h.zero h0
      rw [h.chead_eq, h1, h2]
    · have h2 := (distance_eq_zero s.capacity s.head s.tail (h.head_lt hpos)
        (h.tail_lt hpos)).mp he
      rw [h.chead_eq, h2]
  simp only [next_head, if_pos hct, if_pos hht]

theorem next_head_nonempty {T : Type} {s : State T} (h : Inv s)
    (hne : 0 < distance s.capacity s.head s.tail) :
    next_head s =
      ((if s.chead = s.ctail then { s with ctail := s.tail } else s),
        some s.head) := by
  have hpos : 0 < s.capacity := by
    rcases Nat.eq_zero_or_pos s.capacity with h0 | hpos
    · obtain ⟨h1, h2, _, _⟩ := h.zero h0
      rw [distance, h1, h2] at hne
      simp at hne
    · exact hpos
  simp only [next_head, h.chead_eq]
  split_ifs with g1 g2
  · exact absurd ((distance_eq_zero s.capacity s.head s.tail (h.head_lt hpos)
      (h.tail_lt hpos)).mpr g2) (by omega)
  · rfl
  · rfl

theorem pop_eq_of_empty {T : Type} {s : State T} (h : Inv s)
    (he : distance s.capacity s.head s.tail = 0) :
    pop s = ({ s with ctail := s.tail }, Except.error PopError.Empty) := by
  simp only [pop, next_head_empty h he]

theorem pop_eq_of_nonempty {T : Type} {s : State T} (h : Inv s)
    (hne : 0 < distance s.capacity s.head s.tail) :
    pop s =
      ({ s with
          ctail := if s.chead = s.ctail then s.tail else s.ctail
          data := Function.update s.data (collapse_position s.capacity s.head) none
          head := increment1 s.capacity s.head
          chead := increment1 s.capacity s.head },
        Except.ok (s.data (collapse_position s.capacity s.head))) := by
  simp only [pop, next_head_nonempty h hne]
  split_ifs with g1
  · rfl
  · rfl

/-! ### Invariant and representation preservation for `push` and `pop` -/

theorem Inv_new (T : Type) (c : Nat) : Inv (new T c) := by
  constructor <;> simp [new, distance]

theorem Rep_new (T : Type) (c : Nat) : Rep (new T c) [] := by
  constructor
  · simp [new, distance]
  · intro j hj
    simp at hj

theorem cap_pos_of_dist_pos {T : Type} {s : State T} (h : Inv s)
    (hne : 0 < distance s.capacity s.head s.tail) : 0 < s.capacity := by
  rcases Nat.eq_zero_or_pos s.capacity with h0 | hpos
  · obtain ⟨h1, h2, _, _⟩ := h.zero h0
    rw [distance, h1, h2] at hne
    simp at hne
  · exact hpos

theorem Inv_push_ok {T : Type} {s : State T} {v : T} (h : Inv s)
    (hnf : distance s.capacity s.head s.tail < s.capacity) :
    Inv (push s v).1 := by
  have hpos : 0 < s.capacity := by omega
  have hhl := h.head_lt hpos
  have htl := h.tail_lt hpos
  have hpl := h.phead_lt hpos
  have hcl := h.ctail_lt hpos
  have hdp := h.dist_phead
  have hple := h.phead_le
  have hctl := h.ctail_le
  rw [push_eq_of_not_full h hnf]
  have hi1 : increment1 s.capacity s.tail = increment s.capacity s.tail 1 :=
    increment1_eq s.capacity s.tail hpos htl
  have hd1 : distance s.capacity s.head (increment s.capacity s.tail 1) =
      distance s.capacity s.head s.tail + 1 :=
    distance_increment_right s.capacity s.head s.tail 1 hhl htl (by omega) (by omega)
  have hd0 : distance s.capacity s.head (increment s.capacity s.tail 1) =
      distance s.capacity s.head s.tail + 1 := hd1
  constructor
  case ptail_eq => rfl
  case chead_eq => exact h.chead_eq
  case zero =>
    intro hx
    have hx2 : s.capacity = 0 := hx
    exact absurd hnf (by omega)
  case head_lt =>
    intro hx
    exact hhl
  case tail_lt =>
    intro hx
    show increment1 s.capacity s.tail < 2 * s.capacity
    rw [hi1]
    exact increment_lt s.capacity s.tail 1 hpos htl (by omega)
  case phead_lt =>
    intro hx
    show (if distance s.capacity s.phead s.tail = s.capacity then s.head
      else s.phead) < 2 * s.capacity
    split_ifs
    · exact hhl
    · exact hpl
  case ctail_lt =>
    intro hx
    exact hcl
  case dist_le =>
    show distance s.capacity s.head (increment1 s.capacity s.tail) ≤ s.capacity
    rw [hi1, hd1]
    omega
  case dist_phead =>
    show distance s.capacity s.head (increment1 s.capacity s.tail) ≤
      distance s.capacity
        (if distance s.capacity s.phead s.tail = s.capacity then s.head
          else s.phead) (increment1 s.capacity s.tail)
    rw [hi1, hd1]
    split_ifs with g1
    · rw [hd0]
    · have hd2 : distance s.capacity s.phead (increment s.capacity s.tail 1) =
          distance s.capacity s.phead s.tail + 1 :=
        distance_increment_right s.capacity s.phead s.tail 1 hpl htl (by omega)
          (by omega)
      rw [hd2]
      omega
  case phead_le =>
    show distance s.capacity
        (if distance s.capacity s.phead s.tail = s.capacity then s.head
          else s.phead) (increment1 s.capacity s.tail) ≤ s.capacity
    rw [hi1]
    split_ifs with g1
    · rw [hd0]
      omega
    · have hd2 : distance s.capacity s.phead (increment s.capacity s.tail 1) =
          distance s.capacity s.phead s.tail + 1 :=
        distance_increment_right s.capacity s.phead s.tail 1 hpl htl (by omega)
          (by omega)
      rw [hd2]
      omega
  case ctail_le =>
    show distance s.capacity s.head s.ctail ≤
      distance s.capacity s.head (increment1 s.capacity s.tail)
    rw [hi1, hd1]
    omega

theorem Inv_push_full {T : Type} {s : State T} {v : T} (h : Inv s)
    (hfull : distance s.capacity s.head s.tail = s.capacity) :
    Inv (push s v).1 := by
  rw [push_eq_of_full h hfull]
  constructor
  case ptail_eq => exact h.ptail_eq
  case chead_eq => exact h.chead_eq
  case zero =>
    intro h0
    obtain ⟨h1, h2, _, h4⟩ := h.zero h0
    exact ⟨h1, h2, h1, h4⟩
  case head_lt => exact h.head_lt
  case tail_lt => exact h.tail_lt
  case phead_lt => exact h.head_lt
  case ctail_lt => exact h.ctail_lt
  case dist_le => exact h.dist_le
  case dist_phead => exact le_refl _
  case phead_le => exact h.dist_le
  case ctail_le => exact h.ctail_le

theorem Inv_push {T : Type} {s : State T} (v : T) (h : Inv s) :
    Inv (push s v).1 := by
  rcases eq_or_lt_of_le h.dist_le with hfull | hnf
  · exact Inv_push_full h hfull
  · exact Inv_push_ok h hnf

theorem Inv_pop_ok {T : Type} {s : State T} (h : Inv s)
    (hne : 0 < distance s.capacity s.head s.tail) :
    Inv (pop s).1 := by
  have hpos : 0 < s.capacity := cap_pos_of_dist_pos h hne
  have hhl := h.head_lt hpos
  have htl := h.tail_lt hpos
  have hpl := h.phead_lt hpos
  have hcl := h.ctail_lt hpos
  have hdp := h.dist_phead
  have hple := h.phead_le
  have hctl := h.ctail_le
  have hdle := h.dist_le
  rw [pop_eq_of_nonempty h hne]
  have hi1 : increment1 s.capacity s.head = increment s.capacity s.head 1 :=
    increment1_eq s.capacity s.head hpos hhl
  have hd1 : distance s.capacity (increment s.capacity s.head 1) s.tail =
      distance s.capacity s.head s.tail - 1 :=
    distance_increment_left s.capacity s.head s.tail 1 hhl htl (by omega) (by omega)
  have hdp1 : distance s.capacity (increment s.capacity s.head 1) s.tail ≤
      distance s.capacity s.phead s.tail := by
    rw [hd1]
    omega
  constructor
  case ptail_eq => exact h.ptail_eq
  case chead_eq => rfl
  case zero =>
    intro hx
    have hx2 : s.capacity = 0 := hx
    exact absurd hpos (by omega)
  case head_lt =>
    intro hx
    show increment1 s.capacity s.head < 2 * s.capacity
    rw [hi1]
    exact increment_lt s.capacity s.head 1 hpos hhl (by omega)
  case tail_lt =>
    intro hx
    exact htl
  case phead_lt =>
    intro hx
    exact hpl
  case ctail_lt =>
    intro hx
    show (if s.chead = s.ctail then s.tail else s.ctail) < 2 * s.capacity
    split_ifs
    · exact htl
    · exact hcl
  case dist_le =>
    show distance s.capacity (increment1 s.capacity s.head) s.tail ≤ s.capacity
    rw [hi1, hd1]
    omega
  case dist_phead =>
    show distance s.capacity (increment1 s.capacity s.head) s.tail ≤
      distance s.capacity s.phead s.tail
    rw [hi1]
    exact hdp1
  case phead_le => exact hple
  case ctail_le =>
    show distance s.capacity (increment1 s.capacity s.head)
        (if s.chead = s.ctail then s.tail else s.ctail) ≤
      distance s.capacity (increment1 s.capacity s.head) s.tail
    rw [hi1]
    split_ifs with g1
    · exact le_refl _
    · have hne2 : 0 < distance s.capacity s.head s.ctail := by
        rcases Nat.eq_zero_or_pos (distance s.capacity s.head s.ctail) with
          hz | hp
        · exact absurd ((distance_eq_zero s.capacity s.head s.ctail hhl
            hcl).mp hz) (by rw [← h.chead_eq]; exact g1)
        · exact hp
      have hdc : distance s.capacity (increment s.capacity s.head 1) s.ctail =
          distance s.capacity s.head s.ctail - 1 :=
        distance_increment_left s.capacity s.head s.ctail 1 hhl hcl (by omega)
          (by omega)
      rw [hdc, hd1]
      omega

theorem Inv_pop {T : Type} {s : State T} (h : Inv s) : Inv (pop s).1 := by
  rcases Nat.eq_zero_or_pos (distance s.capacity s.head s.tail) with he | hne
  · rw [pop_eq_of_empty h he]
    constructor
    case ptail_eq => exact h.ptail_eq
    case chead_eq => exact h.chead_eq
    case zero =>
      intro h0
      obtain ⟨h1, h2, h3, _⟩ := h.zero h0
      exact ⟨h1, h2, h3, h2⟩
    case head_lt => exact h.head_lt
    case tail_lt => exact h.tail_lt
    case phead_lt => exact h.phead_lt
    case ctail_lt => exact h.tail_lt
    case dist_le => exact h.dist_le
    case dist_phead => exact h.dist_phead
    case phead_le => exact h.phead_le
    case ctail_le => exact le_refl _
  · exact Inv_pop_ok h hne

theorem Rep_push {T : Type} {s : State T} {l : List T} (v : T) (h : Inv s)
    (hr : Rep s l) (hlt : l.length < s.capacity) :
    (push s v).2 = Except.ok () ∧ Rep (push s v).1 (l ++ [v]) := by
  have hd := hr.1
  have hnf : distance s.capacity s.head s.tail < s.capacity := by omega
  have hpos : 0 < s.capacity := by omega
  have hhl := h.head_lt hpos
  have htl := h.tail_lt hpos
  rw [push_eq_of_not_full h hnf]
  refine ⟨rfl, ?_, ?_⟩
  · show distance s.capacity s.head (increment1 s.capacity s.tail) =
      (l ++ [v]).length
    rw [increment1_eq s.capacity s.tail hpos htl,
      distance_increment_right s.capacity s.head s.tail 1 hhl htl (by omega)
        (by omega),
      hd, List.length_append, List.length_singleton]
  · intro j hj
    rw [List.length_append, List.length_singleton] at hj
    have ht : increment s.capacity s.head l.length = s.tail := by
      rw [← hd]
      exact increment_of_distance s.capacity s.head s.tail hhl htl (by omega)
    show Function.update s.data (collapse_position s.capacity s.tail) (some v)
        (collapse_position s.capacity (increment s.capacity s.head j)) =
      (l ++ [v])[j]?
    rcases Nat.lt_or_ge j l.length with hjl | hjl
    · have hne2 : collapse_position s.capacity (increment s.capacity s.head j) ≠
          collapse_position s.capacity s.tail := by
        rw [← ht]
        intro heq
        have := slot_inj s.capacity s.head j l.length hhl (by omega) (by omega)
          heq
        omega
      rw [Function.update_noteq hne2, hr.2 j hjl,
        List.getElem?_append_left hjl]
    · have hj2 : j = l.length := by omega
      subst hj2
      rw [ht, Function.update_same, List.getElem?_concat_length]

theorem Rep_pop {T : Type} {s : State T} {x : T} {l : List T} (h : Inv s)
    (hr : Rep s (x :: l)) :
    (pop s).2 = Except.ok (some x) ∧ Rep (pop s).1 l := by
  have hd := hr.1
  rw [List.length_cons] at hd
  have hne : 0 < distance s.capacity s.head s.tail := by omega
  have hpos := cap_pos_of_dist_pos h hne
  have hhl := h.head_lt hpos
  have htl := h.tail_lt hpos
  have hdle := h.dist_le
  have hval : s.data (collapse_position s.capacity s.head) = some x := by
    have h0 := hr.2 0 (by simp)
    rw [increment_zero s.capacity s.head (by omega)] at h0
    simpa using h0
  rw [pop_eq_of_nonempty h hne]
  have hi1 : increment1 s.capacity s.head = increment s.capacity s.head 1 :=
    increment1_eq s.capacity s.head hpos hhl
  refine ⟨by rw [hval], ?_, ?_⟩
  · show distance s.capacity (increment1 s.capacity s.head) s.tail = l.length
    rw [hi1,
      distance_increment_left s.capacity s.head s.tail 1 hhl htl (by omega)
        (by omega),
      hd]
    omega
  · intro j hj
    show Function.update s.data (collapse_position s.capacity s.head) none
        (collapse_position s.capacity
          (increment s.capacity (increment1 s.capacity s.head) j)) = l[j]?
    rw [hi1, increment_increment s.capacity s.head 1 j hhl (by omega)]
    have hne2 : collapse_position s.capacity
        (increment s.capacity s.head (1 + j)) ≠
        collapse_position s.capacity s.head := by
      intro heq
      have e0 : increment s.capacity s.head 0 = s.head :=
        increment_zero s.capacity s.head (by omega)
      have heq2 : collapse_position s.capacity
          (increment s.capacity s.head (1 + j)) =
          collapse_position s.capacity (increment s.capacity s.head 0) := by
        rw [e0]
        exact heq
      have := slot_inj s.capacity s.head (1 + j) 0 hhl (by omega) (by omega)
        heq2
      omega
    rw [Function.update_noteq hne2]
    have h1j : 1 + j = j + 1 := by omega
    have := hr.2 (1 + j) (by rw [List.length_cons]; omega)
    rw [this, h1j, List.getElem?_cons_succ]

theorem capacity_push {T : Type} (s : State T) (v : T) :
    (push s v).1.capacity = s.capacity := by
  simp only [push, next_tail]
  split_ifs <;> rfl

theorem capacity_pop {T : Type} (s : State T) :
    (pop s).1.capacity = s.capacity := by
  simp only [pop, next_head]
  split_ifs <;> rfl

/-! ### The round-trip law (claim C1) -/

theorem pushAll_spec {T : Type} {s : State T} {l : List T} (xs : List T)
    (h : Inv s) (hr : Rep s l) (hlen : l.length + xs.length ≤ s.capacity) :
    (pushAll s xs).2 = xs.map (fun _ => Except.ok ()) ∧
    Inv (pushAll s xs).1 ∧ Rep (pushAll s xs).1 (l ++ xs) := by
  induction xs generalizing s l with
  | nil =>
    refine ⟨rfl, h, ?_⟩
    simpa using hr
  | cons x rest ih =>
    rw [List.length_cons] at hlen
    obtain ⟨hok, hrep⟩ := Rep_push x h hr (by omega)
    have hinv := Inv_push x h
    obtain ⟨h1, h2, h3⟩ := ih hinv hrep
      (by
        rw [List.length_append, List.length_singleton, capacity_push]
        omega)
    refine ⟨?_, ?_, ?_⟩
    · show (push s x).2 :: (pushAll (push s x).1 rest).2 =
        (x :: rest).map (fun _ => Except.ok ())
      rw [hok, h1, List.map_cons]
    · exact h2
    · show Rep (pushAll (push s x).1 rest).1 (l ++ x :: rest)
      have : l ++ [x] ++ rest = l ++ x :: rest := by
        rw [List.append_assoc, List.singleton_append]
      rw [← this]
      exact h3

theorem popN_spec {T : Type} {s : State T} {l : List T} (n : Nat) (h : Inv s)
    (hr : Rep s l) (hlen : n ≤ l.length) :
    (popN s n).2 = (l.take n).map (fun y => Except.ok (some y)) ∧
    Inv (popN s n).1 ∧ Rep (popN s n).1 (l.drop n) := by
  induction n generalizing s l with
  | zero => exact ⟨rfl, h, by simpa using hr⟩
  | succ n ih =>
    match l with
    | [] => exact absurd hlen (by simp)
    | y :: l2 =>
      obtain ⟨hok, hrep⟩ := Rep_pop h hr
      have hinv := Inv_pop h
      obtain ⟨h1, h2, h3⟩ := ih hinv hrep
        (by rw [List.length_cons] at hlen; omega)
      refine ⟨?_, h2, by simpa using h3⟩
      show (pop s).2 :: (popN (pop s).1 n).2 =
        ((y :: l2).take (n + 1)).map (fun y => Except.ok (some y))
      rw [hok, h1, List.take_succ_cons, List.map_cons]

/-- C1: for every element type `T`, every capacity `c` and every sequence
`xs` with `xs.length ≤ c`: starting from `new(c).split()`, pushing each
element of `xs` in order succeeds (every `push` returns `Ok`), and then
popping `xs.length` times returns exactly the elements of `xs` in the same
order. -/
theorem C1_round_trip (T : Type) (c : Nat) (xs : List T)
    (h : xs.length ≤ c) :
    (pushAll (new T c) xs).2 = xs.map (fun _ => Except.ok ()) ∧
    (popN (pushAll (new T c) xs).1 xs.length).2 =
      xs.map (fun x => Except.ok (some x)) := by
  obtain ⟨h1, h2, h3⟩ := pushAll_spec xs (Inv_new T c) (Rep_new T c)
    (by simpa using h)
  obtain ⟨h4, _, _⟩ := popN_spec xs.length h2 h3 (by simp)
  refine ⟨h1, ?_⟩
  rw [h4]
  simp

/-- Witness for C1 at `T = Nat`, `c = 2`, `xs = [5, 7]`. -/
theorem C1_round_trip_witness :
    (pushAll (new Nat 2) [5, 7]).2 = [Except.ok (), Except.ok ()] ∧
    (popN (pushAll (new Nat 2) [5, 7]).1 2).2 =
      [Except.ok (some 5), Except.ok (some 7)] := by
  have h := C1_round_trip Nat 2 [5, 7] (by decide)
  simpa using h

/-! ### Inversion and invariant lemmas for the chunk API -/

theorem wcmu_ok_inversion {T : Type} {s : State T} {n : Nat}
    {ch : WriteChunkMaybeUninit}
    (h : (write_chunk_maybe_uninit s n).2 = Except.ok ch) :
    ch = mk_write_chunk s n ∧
    (write_chunk_maybe_uninit s n).1.capacity = s.capacity ∧
    (write_chunk_maybe_uninit s n).1.head = s.head ∧
    (write_chunk_maybe_uninit s n).1.tail = s.tail ∧
    (write_chunk_maybe_uninit s n).1.data = s.data ∧
    (write_chunk_maybe_uninit s n).1.ptail = s.ptail ∧
    (write_chunk_maybe_uninit s n).1.chead = s.chead ∧
    (write_chunk_maybe_uninit s n).1.ctail = s.ctail ∧
    ((write_chunk_maybe_uninit s n).1.phead = s.phead ∨
      (write_chunk_maybe_uninit s n).1.phead = s.head) ∧
    n ≤ s.capacity -
      distance s.capacity (write_chunk_maybe_uninit s n).1.phead s.ptail := by
  revert h
  simp only [write_chunk_maybe_uninit]
  split_ifs with g1 g2 <;> intro h
  · exact absurd h (by simp)
  · injection h with h2
    exact ⟨h2.symm, rfl, rfl, rfl, rfl, rfl, rfl, rfl, Or.inr rfl, by
      show n ≤ s.capacity - distance s.capacity s.head s.ptail
      omega⟩
  · injection h with h2
    exact ⟨h2.symm, rfl, rfl, rfl, rfl, rfl, rfl, rfl, Or.inl rfl, by
      show n ≤ s.capacity - distance s.capacity s.phead s.ptail
      omega⟩

theorem wcmu_error_inversion {T : Type} {s : State T} {n : Nat}
    {e : ChunkError} (h : (write_chunk_maybe_uninit s n).2 = Except.error e) :
    e = ChunkError.TooFewSlots
        (s.capacity - distance s.capacity s.head s.ptail) ∧
    s.capacity - distance s.capacity s.head s.ptail < n ∧
    (write_chunk_maybe_uninit s n).1 = { s with phead := s.head } := by
  revert h
  simp only [write_chunk_maybe_uninit]
  split_ifs with g1 g2 <;> intro h
  · injection h with h2
    exact ⟨h2.symm, g2, rfl⟩
  · exact absurd h (by simp)
  · exact absurd h (by simp)

theorem read_chunk_ok_inversion {T : Type} {s : State T} {n : Nat}
    {ch : ReadChunk} (h : (read_chunk s n).2 = Except.ok ch) :
    ch = mk_read_chunk s n ∧
    (read_chunk s n).1.capacity = s.capacity ∧
    (read_chunk s n).1.head = s.head ∧
    (read_chunk s n).1.tail = s.tail ∧
    (read_chunk s n).1.data = s.data ∧
    (read_chunk s n).1.ptail = s.ptail ∧
    (read_chunk s n).1.chead = s.chead ∧
    (read_chunk s n).1.phead = s.phead ∧
    ((read_chunk s n).1.ctail = s.ctail ∨ (read_chunk s n).1.ctail = s.tail) ∧
    n ≤ distance s.capacity s.chead (read_chunk s n).1.ctail := by
  revert h
  simp only [read_chunk]
  split_ifs with g1 g2 <;> intro h
  · exact absurd h (by simp)
  · injection h with h2
    exact ⟨h2.symm, rfl, rfl, rfl, rfl, rfl, rfl, rfl, Or.inr rfl, by
      show n ≤ distance s.capacity s.chead s.tail
      omega⟩
  · injection h with h2
    exact ⟨h2.symm, rfl, rfl, rfl, rfl, rfl, rfl, rfl, Or.inl rfl, by
      show n ≤ distance s.capacity s.chead s.ctail
      omega⟩

theorem read_chunk_error_inversion {T : Type} {s : State T} {n : Nat}
    {e : ChunkError} (h : (read_chunk s n).2 = Except.error e) :
    e = ChunkError.TooFewSlots (distance s.capacity s.chead s.tail) ∧
    distance s.capacity s.chead s.tail < n ∧
    (read_chunk s n).1 = { s with ctail := s.tail } := by
  revert h
  simp only [read_chunk]
  split_ifs with g1 g2 <;> intro h
  · injection h with h2
    exact ⟨h2.symm, g2, rfl⟩
  · exact absurd h (by simp)
  · exact absurd h (by simp)

theorem Inv_refresh_phead {T : Type} {s : State T} (h : Inv s) :
    Inv { s with phead := s.head } := by
  constructor
  case ptail_eq => exact h.ptail_eq
  case chead_eq => exact h.chead_eq
  case zero =>
    intro h0
    obtain ⟨h1, h2, _, h4⟩ := h.zero h0
    exact ⟨h1, h2, h1, h4⟩
  case head_lt => exact h.head_lt
  case tail_lt => exact h.tail_lt
  case phead_lt => exact h.head_lt
  case ctail_lt => exact h.ctail_lt
  case dist_le => exact h.dist_le
  case dist_phead => exact le_refl _
  case phead_le => exact h.dist_le
  case ctail_le => exact h.ctail_le

theorem Inv_refresh_ctail {T : Type} {s : State T} (h : Inv s) :
    Inv { s with ctail := s.tail } := by
  constructor
  case ptail_eq => exact h.ptail_eq
  case chead_eq => exact h.chead_eq
  case zero =>
    intro h0
    obtain ⟨h1, h2, h3, _⟩ := h.zero h0
    exact ⟨h1, h2, h3, h2⟩
  case head_lt => exact h.head_lt
  case tail_lt => exact h.tail_lt
  case phead_lt => exact h.phead_lt
  case ctail_lt => exact h.tail_lt
  case dist_le => exact h.dist_le
  case dist_phead => exact h.dist_phead
  case phead_le => exact h.phead_le
  case ctail_le => exact le_refl _

theorem State_wcmu {T : Type} (s : State T) (n : Nat) :
    (write_chunk_maybe_uninit s n).1 = s ∨
    (write_chunk_maybe_uninit s n).1 = { s with phead := s.head } := by
  simp only [write_chunk_maybe_uninit]
  split_ifs <;> simp

theorem State_read_chunk {T : Type} (s : State T) (n : Nat) :
    (read_chunk s n).1 = s ∨
    (read_chunk s n).1 = { s with ctail := s.tail } := by
  simp only [read_chunk]
  split_ifs <;> simp

theorem Inv_wcmu {T : Type} {s : State T} (n : Nat) (h : Inv s) :
    Inv (write_chunk_maybe_uninit s n).1 := by
  rcases State_wcmu s n with h1 | h1 <;> rw [h1]
  · exact h
  · exact Inv_refresh_phead h

theorem Inv_read_chunk {T : Type} {s : State T} (n : Nat) (h : Inv s) :
    Inv (read_chunk s n).1 := by
  rcases State_read_chunk s n with h1 | h1 <;> rw [h1]
  · exact h
  · exact Inv_refresh_ctail h

theorem Inv_write_into_chunk {T : Type} {s : State T}
    {ch : WriteChunkMaybeUninit} {vs : List T} (h : Inv s) :
    Inv (write_into_chunk s ch vs) := by
  constructor
  case ptail_eq => exact h.ptail_eq
  case chead_eq => exact h.chead_eq
  case zero => exact h.zero
  case head_lt => exact h.head_lt
  case tail_lt => exact h.tail_lt
  case phead_lt => exact h.phead_lt
  case ctail_lt => exact h.ctail_lt
  case dist_le => exact h.dist_le
  case dist_phead => exact h.dist_phead
  case phead_le => exact h.phead_le
  case ctail_le => exact h.ctail_le

theorem Inv_write_commit {T : Type} {s : State T}
    (ch : WriteChunkMaybeUninit) {k : Nat} (h : Inv s)
    (hk : k ≤ s.capacity - distance s.capacity s.phead s.tail) :
    Inv (WriteChunkMaybeUninit.commit_unchecked s ch k) := by
  rcases Nat.eq_zero_or_pos s.capacity with h0 | hpos
  · obtain ⟨h1, h2, h3, h4⟩ := h.zero h0
    have hk0 : k = 0 := by
      rw [h0] at hk
      simpa using hk
    have ht : increment s.capacity s.ptail k = s.tail := by
      rw [hk0, h.ptail_eq, h0]
      simp [increment]
    constructor
    case ptail_eq => rfl
    case chead_eq => exact h.chead_eq
    case zero =>
      intro hx
      show s.head = 0 ∧ increment s.capacity s.ptail k = 0 ∧
        s.phead = 0 ∧ s.ctail = 0
      rw [ht]
      exact ⟨h1, h2, h3, h4⟩
    case head_lt => exact h.head_lt
    case tail_lt =>
      intro hx
      have hx2 : 0 < s.capacity := hx
      omega
    case phead_lt => exact h.phead_lt
    case ctail_lt => exact h.ctail_lt
    case dist_le =>
      show distance s.capacity s.head (increment s.capacity s.ptail k) ≤
        s.capacity
      rw [ht]
      exact h.dist_le
    case dist_phead =>
      show distance s.capacity s.head (increment s.capacity s.ptail k) ≤
        distance s.capacity s.phead (increment s.capacity s.ptail k)
      rw [ht]
      exact h.dist_phead
    case phead_le =>
      show distance s.capacity s.phead (increment s.capacity s.ptail k) ≤
        s.capacity
      rw [ht]
      exact h.phead_le
    case ctail_le =>
      show distance s.capacity s.head s.ctail ≤
        distance s.capacity s.head (increment s.capacity s.ptail k)
      rw [ht]
      exact h.ctail_le
  · have hhl := h.head_lt hpos
    have htl := h.tail_lt hpos
    have hpl := h.phead_lt hpos
    have hcl := h.ctail_lt hpos
    have hdp := h.dist_phead
    have hple := h.phead_le
    have hctl := h.ctail_le
    have hdle := h.dist_le
    have hkc : k ≤ s.capacity := by omega
    have hd1 : distance s.capacity s.head (increment s.capacity s.tail k) =
        distance s.capacity s.head s.tail + k :=
      distance_increment_right s.capacity s.head s.tail k hhl htl hkc (by omega)
    have hd2 : distance s.capacity s.phead (increment s.capacity s.tail k) =
        distance s.capacity s.phead s.tail + k :=
      distance_increment_right s.capacity s.phead s.tail k hpl htl hkc
        (by omega)
    have hpt := h.ptail_eq
    constructor
    case ptail_eq => rfl
    case chead_eq => exact h.chead_eq
    case zero =>
      intro hx
      have hx2 : s.capacity = 0 := hx
      omega
    case head_lt =>
      intro hx
      exact hhl
    case tail_lt =>
      intro hx
      show increment s.capacity s.ptail k < 2 * s.capacity
      rw [hpt]
      exact increment_lt s.capacity s.tail k hpos htl hkc
    case phead_lt =>
      intro hx
      exact hpl
    case ctail_lt =>
      intro hx
      exact hcl
    case dist_le =>
      show distance s.capacity s.head (increment s.capacity s.ptail k) ≤
        s.capacity
      rw [hpt, hd1]
      omega
    case dist_phead =>
      show distance s.capacity s.head (increment s.capacity s.ptail k) ≤
        distance s.capacity s.phead (increment s.capacity s.ptail k)
      rw [hpt, hd1, hd2]
      omega
    case phead_le =>
      show distance s.capacity s.phead (increment s.capacity s.ptail k) ≤
        s.capacity
      rw [hpt, hd2]
      omega
    case ctail_le =>
      show distance s.capacity s.head s.ctail ≤
        distance s.capacity s.head (increment s.capacity s.ptail k)
      rw [hpt, hd1]
      omega

theorem Inv_read_commit {T : Type} {s : State T} (ch : ReadChunk) {k : Nat}
    (h : Inv s) (hk : k ≤ distance s.capacity s.head s.ctail) :
    Inv (ReadChunk.commit_unchecked s ch k) := by
  rcases Nat.eq_zero_or_pos s.capacity with h0 | hpos
  · obtain ⟨h1, h2, h3, h4⟩ := h.zero h0
    have hk0 : k = 0 := by
      rw [h1, h4] at hk
      simpa [distance] using hk
    have hh : increment s.capacity s.chead k = s.head := by
      rw [hk0, h.chead_eq, h0, h1]
      simp [increment]
    constructor
    case ptail_eq => exact h.ptail_eq
    case chead_eq => rfl
    case zero =>
      intro hx
      show increment s.capacity s.chead k = 0 ∧ s.tail = 0 ∧
        s.phead = 0 ∧ s.ctail = 0
      rw [hh]
      exact ⟨h1, h2, h3, h4⟩
    case head_lt =>
      intro hx
      have hx2 : 0 < s.capacity := hx
      omega
    case tail_lt => exact h.tail_lt
    case phead_lt => exact h.phead_lt
    case ctail_lt => exact h.ctail_lt
    case dist_le =>
      show distance s.capacity (increment s.capacity s.chead k) s.tail ≤
        s.capacity
      rw [hh]
      exact h.dist_le
    case dist_phead =>
      show distance s.capacity (increment s.capacity s.chead k) s.tail ≤
        distance s.capacity s.phead s.tail
      rw [hh]
      exact h.dist_phead
    case phead_le => exact h.phead_le
    case ctail_le =>
      show distance s.capacity (increment s.capacity s.chead k) s.ctail ≤
        distance s.capacity (increment s.capacity s.chead k) s.tail
      rw [hh]
      exact h.ctail_le
  · have hhl := h.head_lt hpos
    have htl := h.tail_lt hpos
    have hpl := h.phead_lt hpos
    have hcl := h.ctail_lt hpos
    have hdp := h.dist_phead
    have hple := h.phead_le
    have hctl := h.ctail_le
    have hdle := h.dist_le
    have hkc : k ≤ s.capacity := by omega
    have hch := h.chead_eq
    have hd1 : distance s.capacity (increment s.capacity s.head k) s.tail =
        distance s.capacity s.head s.tail - k :=
      distance_increment_left s.capacity s.head s.tail k hhl htl hkc (by omega)
    have hd2 : distance s.capacity (increment s.capacity s.head k) s.ctail =
        distance s.capacity s.head s.ctail - k :=
      distance_increment_left s.capacity s.head s.ctail k hhl hcl hkc
        (by omega)
    constructor
    case ptail_eq => exact h.ptail_eq
    case chead_eq => rfl
    case zero =>
      intro hx
      have hx2 : s.capacity = 0 := hx
      omega
    case head_lt =>
      intro hx
      show increment s.capacity s.chead k < 2 * s.capacity
      rw [hch]
      exact increment_lt s.capacity s.head k hpos hhl hkc
    case tail_lt =>
      intro hx
      exact htl
    case phead_lt =>
      intro hx
      exact hpl
    case ctail_lt =>
      intro hx
      exact hcl
    case dist_le =>
      show distance s.capacity (increment s.capacity s.chead k) s.tail ≤
        s.capacity
      rw [hch, hd1]
      omega
    case dist_phead =>
      show distance s.capacity (increment s.capacity s.chead k) s.tail ≤
        distance s.capacity s.phead s.tail
      rw [hch, hd1]
      omega
    case phead_le => exact hple
    case ctail_le =>
      show distance s.capacity (increment s.capacity s.chead k) s.ctail ≤
        distance s.capacity (increment s.capacity s.chead k) s.tail
      rw [hch, hd1, hd2]
      omega

/-! ### Every operation preserves the invariant (claims C5, C7) -/

theorem len_mk_write_chunk {T : Type} (s : State T) (n : Nat) :
    (mk_write_chunk s n).len = n := by
  simp only [mk_write_chunk, WriteChunkMaybeUninit.len]
  omega

theorem len_mk_read_chunk {T : Type} (s : State T) (n : Nat) :
    (mk_read_chunk s n).len = n := by
  simp only [mk_read_chunk, ReadChunk.len]
  omega

theorem State_peek {T : Type} (s : State T) :
    (peek s).1 = s ∨ (peek s).1 = { s with ctail := s.tail } := by
  simp only [peek, next_head]
  split_ifs <;> simp

theorem State_is_empty {T : Type} (s : State T) :
    (is_empty s).1 = s ∨ (is_empty s).1 = { s with ctail := s.tail } := by
  simp only [is_empty, next_head]
  split_ifs <;> simp

theorem State_is_full {T : Type} (s : State T) :
    (is_full s).1 = s ∨ (is_full s).1 = { s with phead := s.head } := by
  simp only [is_full, next_tail]
  split_ifs <;> simp

theorem capacity_wcmu {T : Type} (s : State T) (n : Nat) :
    (write_chunk_maybe_uninit s n).1.capacity = s.capacity := by
  rcases State_wcmu s n with h | h <;> rw [h]

theorem capacity_read_chunk {T : Type} (s : State T) (n : Nat) :
    (read_chunk s n).1.capacity = s.capacity := by
  rcases State_read_chunk s n with h | h <;> rw [h]

theorem capacity_applyOp {T : Type} (s : State T) (op : Op T) :
    (applyOp s op).capacity = s.capacity := by
  cases op with
  | push v => exact capacity_push s v
  | pop => exact capacity_pop s
  | peek => rcases State_peek s with h | h <;> rw [applyOp, h]
  | isFull => rcases State_is_full s with h | h <;> rw [applyOp, h]
  | isEmpty => rcases State_is_empty s with h | h <;> rw [applyOp, h]
  | pslots => rfl
  | cslots => rfl
  | writeCommit n k vs =>
    have hcap := capacity_wcmu s n
    rcases hwc : write_chunk_maybe_uninit s n with ⟨s1, r⟩
    rw [hwc] at hcap
    simp only [applyOp, hwc]
    cases r with
    | error e => exact hcap
    | ok ch =>
      show (if k ≤ ch.len then
          WriteChunkMaybeUninit.commit_unchecked (write_into_chunk s1 ch vs) ch
            k
        else write_into_chunk s1 ch vs).capacity = s.capacity
      split_ifs <;> exact hcap
  | writeDrop n dflt =>
    have hcap := capacity_wcmu s n
    rcases hwc : write_chunk_maybe_uninit s n with ⟨s1, r⟩
    rw [hwc] at hcap
    simp only [write_chunk, applyOp, hwc]
    cases r with
    | error e => exact hcap
    | ok ch => exact hcap
  | readCommit n k =>
    have hcap := capacity_read_chunk s n
    rcases hwc : read_chunk s n with ⟨s1, r⟩
    rw [hwc] at hcap
    simp only [applyOp, hwc]
    cases r with
    | error e => exact hcap
    | ok ch =>
      show (if k ≤ ch.len then ReadChunk.commit_unchecked s1 ch k
        else s1).capacity = s.capacity
      split_ifs <;> exact hcap
  | readDrop n =>
    have hcap := capacity_read_chunk s n
    rcases hwc : read_chunk s n with ⟨s1, r⟩
    rw [hwc] at hcap
    simp only [applyOp, hwc]
    exact hcap

theorem Inv_applyOp {T : Type} {s : State T} (op : Op T) (h : Inv s) :
    Inv (applyOp s op) := by
  cases op with
  | push v => exact Inv_push v h
  | pop => exact Inv_pop h
  | peek =>
    rcases State_peek s with h1 | h1 <;> rw [applyOp, h1]
    · exact h
    · exact Inv_refresh_ctail h
  | isFull =>
    rcases State_is_full s with h1 | h1 <;> rw [applyOp, h1]
    · exact h
    · exact Inv_refresh_phead h
  | isEmpty =>
    rcases State_is_empty s with h1 | h1 <;> rw [applyOp, h1]
    · exact h
    · exact Inv_refresh_ctail h
  | pslots => exact Inv_refresh_phead h
  | cslots => exact Inv_refresh_ctail h
  | writeCommit n k vs =>
    have hinv1 := Inv_wcmu n h
    rcases hwc : write_chunk_maybe_uninit s n with ⟨s1, r⟩
    rw [hwc] at hinv1
    simp only [applyOp, hwc]
    cases r with
    | error e => exact hinv1
    | ok ch =>
      have hok := wcmu_ok_inversion (by rw [hwc])
      obtain ⟨hch, _, _, htail, _, hptail, _, _, _, hbound⟩ := hok
      rw [hwc] at htail hptail hbound
      have hbound2 : n ≤ s.capacity - distance s.capacity s1.phead s.ptail :=
        hbound
      have htail2 : s1.tail = s.tail := htail
      show Inv (if k ≤ ch.len then
          WriteChunkMaybeUninit.commit_unchecked (write_into_chunk s1 ch vs) ch
            k
        else write_into_chunk s1 ch vs)
      split_ifs with hk
      · refine Inv_write_commit ch (Inv_write_into_chunk hinv1) ?_
        show k ≤ s1.capacity - distance s1.capacity s1.phead s1.tail
        have hlen : ch.len = n := by rw [hch]; exact len_mk_write_chunk s n
        have hc1 : s1.capacity = s.capacity := by
          have := capacity_wcmu s n
          rw [hwc] at this
          exact this
        rw [hc1, htail2, ← h.ptail_eq]
        omega
      · exact Inv_write_into_chunk hinv1
  | writeDrop n dflt =>
    have hinv1 := Inv_wcmu n h
    rcases hwc : write_chunk_maybe_uninit s n with ⟨s1, r⟩
    rw [hwc] at hinv1
    simp only [write_chunk, applyOp, hwc]
    cases r with
    | error e => exact hinv1
    | ok ch => exact Inv_write_into_chunk hinv1
  | readCommit n k =>
    have hinv1 := Inv_read_chunk n h
    rcases hwc : read_chunk s n with ⟨s1, r⟩
    rw [hwc] at hinv1
    simp only [applyOp, hwc]
    cases r with
    | error e => exact hinv1
    | ok ch =>
      have hok := read_chunk_ok_inversion (by rw [hwc])
      obtain ⟨hch, _, hhead, _, _, _, hchead, _, _, hbound⟩ := hok
      rw [hwc] at hhead hchead hbound
      have hbound2 : n ≤ distance s.capacity s.chead s1.ctail := hbound
      have hhead2 : s1.head = s.head := hhead
      show Inv (if k ≤ ch.len then ReadChunk.commit_unchecked s1 ch k else s1)
      split_ifs with hk
      · refine Inv_read_commit ch hinv1 ?_
        show k ≤ distance s1.capacity s1.head s1.ctail
        have hlen : ch.len = n := by rw [hch]; exact len_mk_read_chunk s n
        have hc1 : s1.capacity = s.capacity := by
          have := capacity_read_chunk s n
          rw [hwc] at this
          exact this
        rw [hc1, hhead2, ← h.chead_eq]
        omega
      · exact hinv1
  | readDrop n =>
    have hinv1 := Inv_read_chunk n h
    rcases hwc : read_chunk s n with ⟨s1, r⟩
    rw [hwc] at hinv1
    simp only [applyOp, hwc]
    exact hinv1

theorem Inv_foldl {T : Type} {s : State T} (ops : List (Op T)) (h : Inv s) :
    Inv (List.foldl applyOp s ops) := by
  induction ops generalizing s with
  | nil => exact h
  | cons op rest ih => exact ih (Inv_applyOp op h)

theorem capacity_foldl {T : Type} (s : State T) (ops : List (Op T)) :
    (List.foldl applyOp s ops).capacity = s.capacity := by
  induction ops generalizing s with
  | nil => rfl
  | cons op rest ih => rw [List.foldl_cons, ih, capacity_applyOp]

/-- C5: starting from `new(capacity).split()`, after any sequence of
operations (pushes, pops, peeks, fill-level queries, chunk requests with or
without commits) the state satisfies `head < 2 * capacity` and
`tail < 2 * capacity` (both indices `0` when `capacity = 0`) and
`distance(head, tail) ≤ capacity`; every operation preserves this
invariant. -/
theorem C5_invariant (T : Type) (c : Nat) (ops : List (Op T)) :
    (0 < c → (List.foldl applyOp (new T c) ops).head < 2 * c ∧
      (List.foldl applyOp (new T c) ops).tail < 2 * c) ∧
    (c = 0 → (List.foldl applyOp (new T c) ops).head = 0 ∧
      (List.foldl applyOp (new T c) ops).tail = 0) ∧
    distance c (List.foldl applyOp (new T c) ops).head
      (List.foldl applyOp (new T c) ops).tail ≤ c := by
  have hinv := Inv_foldl ops (Inv_new T c)
  have hcap : (List.foldl applyOp (new T c) ops).capacity = c :=
    capacity_foldl (new T c) ops
  refine ⟨?_, ?_, ?_⟩
  · intro hc
    have hc2 : 0 < (List.foldl applyOp (new T c) ops).capacity := by
      rw [hcap]
      exact hc
    have g1 := hinv.head_lt hc2
    have g2 := hinv.tail_lt hc2
    rw [hcap] at g1 g2
    exact ⟨g1, g2⟩
  · intro hc
    have hc2 : (List.foldl applyOp (new T c) ops).capacity = 0 := by
      rw [hcap]
      exact hc
    obtain ⟨h1, h2, _, _⟩ := hinv.zero hc2
    exact ⟨h1, h2⟩
  · have := hinv.dist_le
    rw [hcap] at this
    exact this

/-- Witness for C5 at `T = Nat`, `c = 1`, one push. -/
theorem C5_invariant_witness :
    distance 1 (List.foldl applyOp (new Nat 1) [Op.push 5]).head
      (List.foldl applyOp (new Nat 1) [Op.push 5]).tail ≤ 1 :=
  (C5_invariant Nat 1 [Op.push 5]).2.2

/-- C7: on a queue constructed with `capacity = 0`, after any sequence of
operations every `push` returns `Full(value)` (carrying the value back) and
every `pop` returns `Empty`. -/
theorem C7_capacity_zero (T : Type) (v : T) (ops : List (Op T)) :
    (push (List.foldl applyOp (new T 0) ops) v).2 =
      Except.error (PushError.Full v) ∧
    (pop (List.foldl applyOp (new T 0) ops)).2 =
      Except.error PopError.Empty := by
  have hinv := Inv_foldl ops (Inv_new T 0)
  have hcap : (List.foldl applyOp (new T 0) ops).capacity = 0 :=
    capacity_foldl (new T 0) ops
  obtain ⟨h1, h2, _, _⟩ := hinv.zero hcap
  have hd : distance (List.foldl applyOp (new T 0) ops).capacity
      (List.foldl applyOp (new T 0) ops).head
      (List.foldl applyOp (new T 0) ops).tail =
      (List.foldl applyOp (new T 0) ops).capacity := by
    rw [hcap, h1, h2]
    simp [distance]
  constructor
  · rw [push_eq_of_full hinv hd]
  · rw [pop_eq_of_empty hinv (by rw [hd, hcap])]

/-- Witness for C7 at `T = Nat` with a nonempty preceding operation list. -/
theorem C7_capacity_zero_witness :
    (push (List.foldl applyOp (new Nat 0) [Op.push 3, Op.pop]) 9).2 =
      Except.error (PushError.Full 9) ∧
    (pop (List.foldl applyOp (new Nat 0) [Op.push 3, Op.pop])).2 =
      Except.error PopError.Empty :=
  C7_capacity_zero Nat 9 [Op.push 3, Op.pop]

/-! ### What chunk writes and chunk commits do to the slots

The two regions of a chunk of size `n` taken at position `p` are exactly the
slots `collapse_position (increment p i)` for `i < n`, in ring order.  The
next two lemmas turn the region-based definitions into that ring-order view:
writing into a write chunk fills exactly the `n` slots after `tail` (leaving
the filled window `[head, tail)` untouched), and a read-chunk commit of `k`
slots destroys exactly the `k` slots after `head`. -/

theorem window_chunk_disjoint {T : Type} {s : State T} (h : Inv s)
    {n j i : Nat} (hn : n + distance s.capacity s.head s.tail ≤ s.capacity)
    (hj : j < distance s.capacity s.head s.tail) (hi : i < n) :
    collapse_position s.capacity (increment s.capacity s.head j) ≠
    collapse_position s.capacity (increment s.capacity s.tail i) := by
  intro heq
  have hpos : 0 < s.capacity := by omega
  have hhl := h.head_lt hpos
  have htl := h.tail_lt hpos
  have hdle := h.dist_le
  have ht : increment s.capacity s.head
      (distance s.capacity s.head s.tail) = s.tail :=
    increment_of_distance s.capacity s.head s.tail hhl htl hdle
  rw [← ht, increment_increment s.capacity s.head
    (distance s.capacity s.head s.tail) i hhl (by omega)] at heq
  have := slot_inj s.capacity s.head j
    (distance s.capacity s.head s.tail + i) hhl (by omega) (by omega) heq
  omega

theorem write_into_chunk_spec {T : Type} {s : State T} (n : Nat)
    (vs : List T) (h : Inv s)
    (hn : n + distance s.capacity s.head s.tail ≤ s.capacity) :
    (∀ j, j < distance s.capacity s.head s.tail →
      (write_into_chunk s (mk_write_chunk s n) vs).data
        (collapse_position s.capacity (increment s.capacity s.head j)) =
      s.data (collapse_position s.capacity (increment s.capacity s.head j))) ∧
    (∀ i, i < n →
      (write_into_chunk s (mk_write_chunk s n) vs).data
        (collapse_position s.capacity (increment s.capacity s.tail i)) =
      vs[i]?) := by
  rcases Nat.eq_zero_or_pos s.capacity with h0 | hpos
  · exact ⟨fun j hj => absurd hj (by omega), fun i hi => absurd hi (by omega)⟩
  · have hhl := h.head_lt hpos
    have htl := h.tail_lt hpos
    have hdle := h.dist_le
    have hcs := collapse_lt s.capacity s.tail hpos htl
    have hnc : n ≤ s.capacity := by omega
    have hmin1 := Nat.min_le_left n
      (s.capacity - collapse_position s.capacity s.tail)
    have hmin2 := Nat.min_le_right n
      (s.capacity - collapse_position s.capacity s.tail)
    have hminc := min_choice n
      (s.capacity - collapse_position s.capacity s.tail)
    constructor
    · intro j hj
      have hdisj := fun i hi =>
        window_chunk_disjoint h hn hj (hi :
          i < n)
      simp only [write_into_chunk, mk_write_chunk, h.ptail_eq]
      rw [if_neg, if_neg]
      · -- the window slot is not in the second region
        intro hx
        have hfln : min n (s.capacity - collapse_position s.capacity s.tail) <
            n := by omega
        have hfl : min n (s.capacity - collapse_position s.capacity s.tail) =
            s.capacity - collapse_position s.capacity s.tail := by omega
        refine hdisj
          (min n (s.capacity - collapse_position s.capacity s.tail) +
            collapse_position s.capacity (increment s.capacity s.head j))
          (by omega) ?_
        rw [region2_slot s.capacity s.tail n
          (min n (s.capacity - collapse_position s.capacity s.tail) +
            collapse_position s.capacity (increment s.capacity s.head j))
          htl hnc (by omega) (by omega)]
        omega
      · -- the window slot is not in the first region
        intro hx
        obtain ⟨hx1, hx2⟩ := hx
        refine hdisj
          (collapse_position s.capacity (increment s.capacity s.head j) -
            collapse_position s.capacity s.tail) (by omega) ?_
        rw [← region1_slot s.capacity s.tail n
          (collapse_position s.capacity (increment s.capacity s.head j) -
            collapse_position s.capacity s.tail) htl (by omega)]
        omega
    · intro i hi
      simp only [write_into_chunk, mk_write_chunk, h.ptail_eq]
      rcases Nat.lt_or_ge i
        (min n (s.capacity - collapse_position s.capacity s.tail)) with
        hifl | hifl
      · rw [← region1_slot s.capacity s.tail n i htl hifl, if_pos (by omega),
          Nat.add_sub_cancel_left]
      · have hfln : min n (s.capacity - collapse_position s.capacity s.tail) <
            n := by omega
        have hfl : min n (s.capacity - collapse_position s.capacity s.tail) =
            s.capacity - collapse_position s.capacity s.tail := by omega
        rw [region2_slot s.capacity s.tail n i htl hnc hifl hi,
          if_neg (by omega), if_pos (by omega)]
        have hidx : min n (s.capacity - collapse_position s.capacity s.tail) +
            (i - min n (s.capacity - collapse_position s.capacity s.tail)) =
            i := by omega
        rw [hidx]

theorem read_commit_destroyed {T : Type} {s : State T} {n k : Nat}
    (h : Inv s) (hn : n ≤ distance s.capacity s.head s.tail) (hk : k ≤ n) :
    (∀ i, i < k →
      (ReadChunk.commit_unchecked s (mk_read_chunk s n) k).data
        (collapse_position s.capacity (increment s.capacity s.head i)) =
      none) ∧
    (∀ x, (∀ i, i < k →
        x ≠ collapse_position s.capacity (increment s.capacity s.head i)) →
      (ReadChunk.commit_unchecked s (mk_read_chunk s n) k).data x =
        s.data x) := by
  have hA1 := Nat.min_le_left n
    (s.capacity - collapse_position s.capacity s.head)
  have hA2 := Nat.min_le_right n
    (s.capacity - collapse_position s.capacity s.head)
  have hAc := min_choice n (s.capacity - collapse_position s.capacity s.head)
  have hB1 := Nat.min_le_left
    (min n (s.capacity - collapse_position s.capacity s.head)) k
  have hB2 := Nat.min_le_right
    (min n (s.capacity - collapse_position s.capacity s.head)) k
  have hBc := min_choice
    (min n (s.capacity - collapse_position s.capacity s.head)) k
  have hC1 := Nat.min_le_left k
    (s.capacity - collapse_position s.capacity s.head)
  have hC2 := Nat.min_le_right k
    (s.capacity - collapse_position s.capacity s.head)
  have hCc := min_choice k (s.capacity - collapse_position s.capacity s.head)
  have hD1 := Nat.min_le_left
    (n - min n (s.capacity - collapse_position s.capacity s.head))
    (k - min (min n (s.capacity - collapse_position s.capacity s.head)) k)
  have hD2 := Nat.min_le_right
    (n - min n (s.capacity - collapse_position s.capacity s.head))
    (k - min (min n (s.capacity - collapse_position s.capacity s.head)) k)
  have hDc := min_choice
    (n - min n (s.capacity - collapse_position s.capacity s.head))
    (k - min (min n (s.capacity - collapse_position s.capacity s.head)) k)
  have hf1 : min (min n (s.capacity - collapse_position s.capacity s.head))
      k = min k (s.capacity - collapse_position s.capacity s.head) := by
    omega
  have hf2 : min (n - min n (s.capacity - collapse_position s.capacity s.head))
      (k - min (min n (s.capacity - collapse_position s.capacity s.head)) k) =
      k - min k (s.capacity - collapse_position s.capacity s.head) := by
    omega
  rcases Nat.eq_zero_or_pos s.capacity with h0 | hpos
  · obtain ⟨hh1, hh2, _, _⟩ := h.zero h0
    have hd0 : distance s.capacity s.head s.tail = 0 := by
      rw [hh1, hh2]
      simp [distance]
    have hk0 : k = 0 := by omega
    constructor
    · intro i hi
      omega
    · intro x hx
      simp only [ReadChunk.commit_unchecked, mk_read_chunk, h.chead_eq]
      rw [if_neg (by omega), if_neg (by omega)]
  · have hhl := h.head_lt hpos
    have hdle := h.dist_le
    have hcs := collapse_lt s.capacity s.head hpos hhl
    have hkc : k ≤ s.capacity := by omega
    constructor
    · intro i hi
      simp only [ReadChunk.commit_unchecked, mk_read_chunk, h.chead_eq]
      rw [hf2, hf1]
      rcases Nat.lt_or_ge i
        (min k (s.capacity - collapse_position s.capacity s.head)) with
        hifl | hifl
      · rw [← region1_slot s.capacity s.head k i hhl hifl, if_pos (by omega)]
      · have hfln : min k (s.capacity - collapse_position s.capacity s.head) <
            k := by omega
        have hfl : min k (s.capacity - collapse_position s.capacity s.head) =
            s.capacity - collapse_position s.capacity s.head := by omega
        rw [region2_slot s.capacity s.head k i hhl hkc hifl hi,
          if_neg (by omega), if_pos (by omega)]
    · intro x hx
      simp only [ReadChunk.commit_unchecked, mk_read_chunk, h.chead_eq]
      rw [hf2, hf1, if_neg, if_neg]
      · intro hcond
        have hfln : min k (s.capacity - collapse_position s.capacity s.head) <
            k := by omega
        have hfl : min k (s.capacity - collapse_position s.capacity s.head) =
            s.capacity - collapse_position s.capacity s.head := by omega
        refine hx
          (min k (s.capacity - collapse_position s.capacity s.head) + x)
          (by omega) ?_
        rw [region2_slot s.capacity s.head k
          (min k (s.capacity - collapse_position s.capacity s.head) + x) hhl
          hkc (by omega) (by omega)]
        omega
      · intro hcond
        obtain ⟨hc1, hc2⟩ := hcond
        refine hx (x - collapse_position s.capacity s.head) (by omega) ?_
        rw [← region1_slot s.capacity s.head k
          (x - collapse_position s.capacity s.head) hhl (by omega)]
        omega

theorem read_commit_fields {T : Type} (s : State T) (ch : ReadChunk)
    (k : Nat) :
    (ReadChunk.commit_unchecked s ch k).capacity = s.capacity ∧
    (ReadChunk.commit_unchecked s ch k).head =
      increment s.capacity s.chead k ∧
    (ReadChunk.commit_unchecked s ch k).chead =
      increment s.capacity s.chead k ∧
    (ReadChunk.commit_unchecked s ch k).tail = s.tail ∧
    (ReadChunk.commit_unchecked s ch k).ptail = s.ptail ∧
    (ReadChunk.commit_unchecked s ch k).phead = s.phead ∧
    (ReadChunk.commit_unchecked s ch k).ctail = s.ctail :=
  ⟨rfl, rfl, rfl, rfl, rfl, rfl, rfl⟩

theorem Rep_read_commit {T : Type} {s : State T} {l : List T} {n k : Nat}
    (h : Inv s) (hr : Rep s l) (hn : n ≤ l.length) (hk : k ≤ n) :
    Rep (ReadChunk.commit_unchecked s (mk_read_chunk s n) k) (l.drop k) := by
  have hd := hr.1
  have hdes := read_commit_destroyed h (by omega) hk
  rcases Nat.eq_zero_or_pos s.capacity with h0 | hpos
  · obtain ⟨hh1, hh2, _, _⟩ := h.zero h0
    have hd0 : distance s.capacity s.head s.tail = 0 := by
      rw [hh1, hh2]
      simp [distance]
    have hk0 : k = 0 := by omega
    have hl0 : l = [] := by
      have : l.length = 0 := by omega
      exact List.length_eq_zero.mp this
    subst hk0 hl0
    have hinc : increment s.capacity s.chead 0 = s.chead := by
      rw [h.chead_eq, hh1, h0]
      simp [increment]
    constructor
    · show distance s.capacity (increment s.capacity s.chead 0) s.tail =
        (List.drop 0 ([] : List T)).length
      rw [hinc, h.chead_eq]
      simpa using hd
    · intro j hj
      simp at hj
  · have hhl := h.head_lt hpos
    have htl := h.tail_lt hpos
    have hdle := h.dist_le
    have hkc : k ≤ s.capacity := by omega
    constructor
    · show distance s.capacity (increment s.capacity s.chead k) s.tail =
        (l.drop k).length
      rw [h.chead_eq,
        distance_increment_left s.capacity s.head s.tail k hhl htl hkc
          (by omega),
        List.length_drop]
      omega
    · intro j hj
      rw [List.length_drop] at hj
      show (ReadChunk.commit_unchecked s (mk_read_chunk s n) k).data
        (collapse_position s.capacity
          (increment s.capacity (increment s.capacity s.chead k) j)) =
        (l.drop k)[j]?
      rw [h.chead_eq,
        increment_increment s.capacity s.head k j hhl (by omega)]
      have hx := hdes.2
        (collapse_position s.capacity (increment s.capacity s.head (k + j)))
        (by
          intro i hi heq
          have := slot_inj s.capacity s.head (k + j) i hhl (by omega)
            (by omega) heq
          omega)
      rw [hx, hr.2 (k + j) (by omega), List.getElem?_drop]

theorem as_slices_spec {T : Type} {s : State T} {l : List T} {n : Nat}
    (h : Inv s) (hr : Rep s l) (hn : n ≤ l.length) :
    ((mk_read_chunk s n).as_slices s).1 ++
      ((mk_read_chunk s n).as_slices s).2 = (l.take n).map some := by
  have hd := hr.1
  have hnd : n ≤ distance s.capacity s.head s.tail := by omega
  apply List.ext_getElem?
  intro i
  simp only [ReadChunk.as_slices, mk_read_chunk, h.chead_eq]
  have hlen1 : ((List.range
      (min n (s.capacity - collapse_position s.capacity s.head))).map
      (fun i => s.data (collapse_position s.capacity s.head + i))).length =
      min n (s.capacity - collapse_position s.capacity s.head) := by
    simp
  rcases Nat.lt_or_ge i
    (min n (s.capacity - collapse_position s.capacity s.head)) with hifl | hifl
  · have hin : i < n := by omega
    have hil : i < l.length := by omega
    have hpos : 0 < s.capacity := by
      rcases Nat.eq_zero_or_pos s.capacity with h0 | hpos
      · obtain ⟨hh1, hh2, _, _⟩ := h.zero h0
        rw [hh1, hh2] at hd
        simp [distance] at hd
        omega
      · exact hpos
    have hhl := h.head_lt hpos
    rw [List.getElem?_append_left (by rw [hlen1]; exact hifl),
      List.getElem?_map, List.getElem?_range hifl, Option.map_some']
    rw [region1_slot s.capacity s.head n i hhl hifl, hr.2 i hil,
      List.getElem?_map, List.getElem?_take, if_pos hin,
      List.getElem?_eq_getElem hil]
    rfl
  · rcases Nat.lt_or_ge i n with hin | hin
    · have hil : i < l.length := by omega
      have hpos : 0 < s.capacity := by
        rcases Nat.eq_zero_or_pos s.capacity with h0 | hpos
        · obtain ⟨hh1, hh2, _, _⟩ := h.zero h0
          rw [hh1, hh2] at hd
          simp [distance] at hd
          omega
        · exact hpos
      have hhl := h.head_lt hpos
      have hnc : n ≤ s.capacity := by
        have := h.dist_le
        omega
      rw [List.getElem?_append_right (by rw [hlen1]; exact hifl),
        List.getElem?_map, hlen1, List.getElem?_range (by omega),
        Option.map_some']
      have hreg := region2_slot s.capacity s.head n i hhl hnc hifl hin
      rw [← hreg, hr.2 i hil, List.getElem?_map, List.getElem?_take,
        if_pos hin, List.getElem?_eq_getElem hil]
      rfl
    · rw [List.getElem?_eq_none (by simp; omega),
        List.getElem?_eq_none (by simp; omega)]

theorem wcmu_avail {T : Type} {s : State T} {n : Nat}
    {ch : WriteChunkMaybeUninit} (h : Inv s)
    (hok : (write_chunk_maybe_uninit s n).2 = Except.ok ch) :
    n + distance s.capacity s.head s.tail ≤ s.capacity := by
  obtain ⟨_, hcap, hhead, htail, _, _, _, _, _, hbound⟩ := wcmu_ok_inversion hok
  have h1 := Inv_wcmu n h
  have hdp := h1.dist_phead
  have hpl := h1.phead_le
  rw [hcap, hhead, htail] at hdp
  rw [hcap, htail] at hpl
  rw [h.ptail_eq] at hbound
  omega

theorem read_chunk_avail {T : Type} {s : State T} {n : Nat} {ch : ReadChunk}
    (h : Inv s) (hok : (read_chunk s n).2 = Except.ok ch) :
    n ≤ distance s.capacity s.head s.tail := by
  obtain ⟨_, hcap, hhead, htail, _, _, _, _, _, hbound⟩ :=
    read_chunk_ok_inversion hok
  have h1 := Inv_read_chunk n h
  have hcl := h1.ctail_le
  rw [hcap, hhead, htail] at hcl
  rw [h.chead_eq] at hbound
  omega

theorem iterN_write {k : Nat} {ch : WriteChunkMaybeUninit}
    (h : ch.iterated + k ≤ ch.len) :
    (WriteChunkMaybeUninit.iterN k ch).iterated = ch.iterated + k := by
  induction k generalizing ch with
  | zero => rfl
  | succ k ih =>
    have hlt : ch.iterated < ch.first_len + ch.second_len := by
      simp only [WriteChunkMaybeUninit.len] at h
      omega
    have hnext : ch.next.2 = { ch with iterated := ch.iterated + 1 } := by
      simp only [WriteChunkMaybeUninit.next]
      split_ifs <;> first | rfl | exact absurd hlt (by omega)
    show (WriteChunkMaybeUninit.iterN k ch.next.2).iterated =
      ch.iterated + (k + 1)
    rw [hnext]
    have hih := ih
      (show ({ ch with iterated := ch.iterated + 1 } :
          WriteChunkMaybeUninit).iterated + k ≤
        ({ ch with iterated := ch.iterated + 1 } :
          WriteChunkMaybeUninit).len by
        simp only [WriteChunkMaybeUninit.len] at h ⊢
        omega)
    rw [hih]
    show ch.iterated + 1 + k = ch.iterated + (k + 1)
    omega

theorem iterN_read {k : Nat} {ch : ReadChunk} (h : ch.iterated + k ≤ ch.len) :
    (ReadChunk.iterN k ch).iterated = ch.iterated + k := by
  induction k generalizing ch with
  | zero => rfl
  | succ k ih =>
    have hlt : ch.iterated < ch.first_len + ch.second_len := by
      simp only [ReadChunk.len] at h
      omega
    have hnext : ch.next.2 = { ch with iterated := ch.iterated + 1 } := by
      simp only [ReadChunk.next]
      split_ifs <;> first | rfl | exact absurd hlt (by omega)
    show (ReadChunk.iterN k ch.next.2).iterated = ch.iterated + (k + 1)
    rw [hnext]
    have hih := ih
      (show ({ ch with iterated := ch.iterated + 1 } : ReadChunk).iterated +
          k ≤ ({ ch with iterated := ch.iterated + 1 } : ReadChunk).len by
        simp only [ReadChunk.len] at h ⊢
        omega)
    rw [hih]
    show ch.iterated + 1 + k = ch.iterated + (k + 1)
    omega

/-- C2: on an invariant state, `push value` returns `Full(value)` exactly
when `distance(head, tail) = capacity` holds for the refreshed (true) shared
head; otherwise it writes `value` into the slot at `collapse_position(tail)`,
advances `tail` (shared and cached) by one position through the doubled
range, keeps `head` unchanged, and returns `Ok`.  (The Acquire/Release
orderings of the loads and stores have no observable content in this
sequential embedding.) -/
theorem C2_push_contract {T : Type} (s : State T) (v : T) (h : Inv s) :
    ((push s v).2 = Except.error (PushError.Full v) ↔
      distance s.capacity s.head s.tail = s.capacity) ∧
    (distance s.capacity s.head s.tail ≠ s.capacity →
      (push s v).2 = Except.ok () ∧
      (push s v).1.data =
        Function.update s.data (collapse_position s.capacity s.tail)
          (some v) ∧
      (push s v).1.tail = increment1 s.capacity s.tail ∧
      (push s v).1.ptail = increment1 s.capacity s.tail ∧
      (push s v).1.head = s.head) := by
  rcases eq_or_lt_of_le h.dist_le with hfull | hnf
  · rw [push_eq_of_full h hfull]
    exact ⟨⟨fun _ => hfull, fun _ => rfl⟩, fun hne => absurd hfull hne⟩
  · rw [push_eq_of_not_full h hnf]
    exact ⟨⟨fun he => absurd he (by simp), fun hd => absurd hd (by omega)⟩,
      fun _ => ⟨rfl, rfl, rfl, rfl, rfl⟩⟩

/-- Witness for C2: a non-full queue accepts the push. -/
theorem C2_push_contract_witness : (push (new Nat 1) 3).2 = Except.ok () := by
  have h := C2_push_contract (new Nat 1) 3 (Inv_new Nat 1)
  exact (h.2 (by decide)).1

/-- C10: failed single-element operations are atomic.  A `push` that fails
returns `Full` carrying the very value passed in and changes nothing except
(possibly) the producer's private cached copy of `head`; a `pop` that fails
returns `Empty` and changes nothing except (possibly) the consumer's private
cached copy of `tail`. -/
theorem C10_failed_ops_atomic {T : Type} (s : State T) (v : T) (h : Inv s) :
    (∀ e, (push s v).2 = Except.error e →
      e = PushError.Full v ∧
      (push s v).1.head = s.head ∧ (push s v).1.tail = s.tail ∧
      (push s v).1.data = s.data ∧ (push s v).1.ptail = s.ptail ∧
      (push s v).1.chead = s.chead ∧ (push s v).1.ctail = s.ctail) ∧
    (∀ e, (pop s).2 = Except.error e →
      e = PopError.Empty ∧
      (pop s).1.head = s.head ∧ (pop s).1.tail = s.tail ∧
      (pop s).1.data = s.data ∧ (pop s).1.ptail = s.ptail ∧
      (pop s).1.chead = s.chead ∧ (pop s).1.phead = s.phead) := by
  constructor
  · intro e he
    rcases eq_or_lt_of_le h.dist_le with hfull | hnf
    · rw [push_eq_of_full h hfull] at he ⊢
      have he2 : Except.error (PushError.Full v) = Except.error e := he
      injection he2 with he3
      exact ⟨he3.symm, rfl, rfl, rfl, rfl, rfl, rfl⟩
    · rw [push_eq_of_not_full h hnf] at he
      exact absurd he (by simp)
  · intro e he
    rcases Nat.eq_zero_or_pos (distance s.capacity s.head s.tail) with h0 | hp
    · rw [pop_eq_of_empty h h0] at he ⊢
      refine ⟨?_, rfl, rfl, rfl, rfl, rfl, rfl⟩
      cases e
      rfl
    · rw [pop_eq_of_nonempty h hp] at he
      exact absurd he (by simp)

/-- Witness for C10: a capacity-0 queue fails both operations and keeps its
state. -/
theorem C10_failed_ops_atomic_witness :
    (push (new Nat 0) 1).1.head = (new Nat 0).head ∧
    (pop (new Nat 0)).1.tail = (new Nat 0).tail := by
  have h := C10_failed_ops_atomic (new Nat 0) 1 (Inv_new Nat 0)
  exact ⟨(h.1 (PushError.Full 1) (by rfl)).2.1,
    (h.2 PopError.Empty (by rfl)).2.2.1⟩

/-- C6: every successfully returned chunk of requested size `n` has
`first_len = min n (capacity - collapse_position pos)` and
`second_len = n - first_len`, where `pos` is the current tail (for a write
chunk) resp. head (for a read chunk); consequently the first slice is empty
only when `n = 0`, and whenever the first slice holds all `n` elements the
second slice is empty. -/
theorem C6_chunk_geometry {T : Type} (s : State T) (n : Nat) (h : Inv s) :
    (∀ ch, (write_chunk_maybe_uninit s n).2 = Except.ok ch →
      ch.first_len =
        min n (s.capacity - collapse_position s.capacity s.tail) ∧
      ch.second_len = n - ch.first_len ∧
      (ch.first_len = 0 → n = 0) ∧
      (ch.first_len = n → ch.second_len = 0)) ∧
    (∀ ch, (read_chunk s n).2 = Except.ok ch →
      ch.first_len =
        min n (s.capacity - collapse_position s.capacity s.head) ∧
      ch.second_len = n - ch.first_len ∧
      (ch.first_len = 0 → n = 0) ∧
      (ch.first_len = n → ch.second_len = 0)) := by
  constructor
  · intro ch hch
    have havail := wcmu_avail h hch
    obtain ⟨hcheq, _⟩ := wcmu_ok_inversion hch
    subst hcheq
    refine ⟨?_, rfl, ?_, ?_⟩
    · show min n (s.capacity - collapse_position s.capacity s.ptail) =
        min n (s.capacity - collapse_position s.capacity s.tail)
      rw [h.ptail_eq]
    · intro h0
      have h02 : min n (s.capacity - collapse_position s.capacity s.ptail) =
          0 := h0
      rw [h.ptail_eq] at h02
      rcases Nat.eq_zero_or_pos s.capacity with hc0 | hcpos
      · omega
      · have := collapse_lt s.capacity s.tail hcpos (h.tail_lt hcpos)
        omega
    · intro hfl
      have hfl2 : min n (s.capacity - collapse_position s.capacity s.ptail) =
          n := hfl
      show n - min n (s.capacity - collapse_position s.capacity s.ptail) = 0
      omega
  · intro ch hch
    have havail := read_chunk_avail h hch
    have hdle := h.dist_le
    obtain ⟨hcheq, _⟩ := read_chunk_ok_inversion hch
    subst hcheq
    refine ⟨?_, rfl, ?_, ?_⟩
    · show min n (s.capacity - collapse_position s.capacity s.chead) =
        min n (s.capacity - collapse_position s.capacity s.head)
      rw [h.chead_eq]
    · intro h0
      have h02 : min n (s.capacity - collapse_position s.capacity s.chead) =
          0 := h0
      rw [h.chead_eq] at h02
      rcases Nat.eq_zero_or_pos s.capacity with hc0 | hcpos
      · omega
      · have := collapse_lt s.capacity s.head hcpos (h.head_lt hcpos)
        omega
    · intro hfl
      have hfl2 : min n (s.capacity - collapse_position s.capacity s.chead) =
          n := hfl
      show n - min n (s.capacity - collapse_position s.capacity s.chead) = 0
      omega

/-- Witness for C6: a wrapped chunk on a concrete state. -/
theorem C6_chunk_geometry_witness :
    ((write_chunk_maybe_uninit (new Nat 3) 2).2 =
      Except.ok ⟨2, 0, 0⟩) ∧
    (⟨2, 0, 0⟩ : WriteChunkMaybeUninit).first_len =
      min 2 ((new Nat 3).capacity -
        collapse_position (new Nat 3).capacity (new Nat 3).tail) := by
  have h := C6_chunk_geometry (new Nat 3) 2 (Inv_new Nat 3)
  exact ⟨by rfl, (h.1 ⟨2, 0, 0⟩ (by rfl)).1⟩

/-- C8 counterexample: the claim says every chunk commit method is total for
every input, but `commit(k)` panics (`assert!(n <= self.len())`, modelled as
`none`) when `k` exceeds the chunk length: requesting a zero-length read
chunk succeeds, and committing `1` slot of it panics. -/
theorem C8_commit_panic_counterexample :
    (read_chunk (new Nat 1) 0).2 = Except.ok ⟨0, 0, 0⟩ ∧
    ReadChunk.commit (read_chunk (new Nat 1) 0).1 ⟨0, 0, 0⟩ 1 = none := by
  constructor
  · rfl
  · rfl

/-- C8 (amended): every public operation is total and reports failure by
value — `push` returns `Ok` or `Full(value)`, `pop`/`peek` return the value
or `Empty`, chunk requests return a chunk or `TooFewSlots`, and
`commit_iterated` / `commit_all` always succeed — except the checked
`commit(k)` methods of the three chunk types, which panic exactly when `k`
exceeds the chunk length (as their documentation states). -/
theorem C8_totality_amended {T : Type} (s : State T) (v : T) (n k : Nat)
    (wch : WriteChunkMaybeUninit) (sch : WriteChunk) (rch : ReadChunk) :
    (WriteChunkMaybeUninit.commit s wch k = none ↔ wch.len < k) ∧
    (WriteChunk.commit s sch k = none ↔ sch.inner.len < k) ∧
    (ReadChunk.commit s rch k = none ↔ rch.len < k) ∧
    ((push s v).2 = Except.ok () ∨
      (push s v).2 = Except.error (PushError.Full v)) ∧
    ((pop s).2 = Except.error PopError.Empty ∨
      ∃ o, (pop s).2 = Except.ok o) ∧
    ((peek s).2 = Except.error PeekError.Empty ∨
      ∃ o, (peek s).2 = Except.ok o) ∧
    ((∃ ch, (write_chunk_maybe_uninit s n).2 = Except.ok ch) ∨
      ∃ m, (write_chunk_maybe_uninit s n).2 =
        Except.error (ChunkError.TooFewSlots m)) ∧
    ((∃ ch, (read_chunk s n).2 = Except.ok ch) ∨
      ∃ m, (read_chunk s n).2 = Except.error (ChunkError.TooFewSlots m)) := by
  refine ⟨?_, ?_, ?_, ?_, ?_, ?_, ?_, ?_⟩
  · simp only [WriteChunkMaybeUninit.commit]
    split_ifs with hg
    · simp
      omega
    · simp
      omega
  · simp only [WriteChunk.commit, WriteChunkMaybeUninit.commit]
    split_ifs with hg
    · simp [WriteChunkMaybeUninit.len] at hg ⊢
      omega
    · simp [WriteChunkMaybeUninit.len] at hg ⊢
      omega
  · simp only [ReadChunk.commit]
    split_ifs with hg
    · simp
      omega
    · simp
      omega
  · simp only [push, next_tail]
    split_ifs <;> simp
  · simp only [pop, next_head]
    split_ifs <;> simp
  · simp only [peek, next_head]
    split_ifs <;> simp
  · simp only [write_chunk_maybe_uninit]
    split_ifs <;> simp
  · simp only [read_chunk]
    split_ifs <;> simp

/-- C3: committing `k` slots of a chunk — via `commit k`, `commit_iterated`
after `k` iterations, or `commit_all` with `k = n` — advances the
corresponding index (tail for a write chunk, head for a read chunk) by
exactly `k` positions through the doubled range; a read-chunk commit
additionally destroys exactly the first `k` slots of the chunk in ring
order and no others. -/
theorem C3_commit_advances {T : Type} (s : State T) (h : Inv s) :
    (∀ n k ch, (write_chunk_maybe_uninit s n).2 = Except.ok ch → k ≤ ch.len →
      WriteChunkMaybeUninit.commit (write_chunk_maybe_uninit s n).1 ch k =
        some (WriteChunkMaybeUninit.commit_unchecked
          (write_chunk_maybe_uninit s n).1 ch k) ∧
      (WriteChunkMaybeUninit.commit_unchecked (write_chunk_maybe_uninit s n).1
        ch k).tail = increment s.capacity s.tail k ∧
      (WriteChunkMaybeUninit.commit_unchecked (write_chunk_maybe_uninit s n).1
        ch k).head = s.head ∧
      (WriteChunkMaybeUninit.commit_iterated (write_chunk_maybe_uninit s n).1
        (WriteChunkMaybeUninit.iterN k ch)).tail =
          increment s.capacity s.tail k ∧
      (WriteChunkMaybeUninit.commit_all (write_chunk_maybe_uninit s n).1
        ch).tail = increment s.capacity s.tail n) ∧
    (∀ n k ch, (read_chunk s n).2 = Except.ok ch → k ≤ ch.len →
      ReadChunk.commit (read_chunk s n).1 ch k =
        some (ReadChunk.commit_unchecked (read_chunk s n).1 ch k) ∧
      (ReadChunk.commit_unchecked (read_chunk s n).1 ch k).head =
        increment s.capacity s.head k ∧
      (ReadChunk.commit_unchecked (read_chunk s n).1 ch k).tail = s.tail ∧
      (ReadChunk.commit_iterated (read_chunk s n).1
        (ReadChunk.iterN k ch)).head = increment s.capacity s.head k ∧
      (ReadChunk.commit_all (read_chunk s n).1 ch).head =
        increment s.capacity s.head n ∧
      (∀ i, i < k →
        (ReadChunk.commit_unchecked (read_chunk s n).1 ch k).data
          (collapse_position s.capacity (increment s.capacity s.head i)) =
          none) ∧
      (∀ x, (∀ i, i < k →
          x ≠ collapse_position s.capacity (increment s.capacity s.head i)) →
        (ReadChunk.commit_unchecked (read_chunk s n).1 ch k).data x =
          s.data x)) := by
  constructor
  · intro n k ch hok hk
    obtain ⟨hch, _⟩ := wcmu_ok_inversion hok
    have hit : ch.iterated = 0 := by rw [hch]; rfl
    have hlen : ch.len = n := by rw [hch]; exact len_mk_write_chunk s n
    have hiterN : (WriteChunkMaybeUninit.iterN k ch).iterated = k := by
      rw [iterN_write (by omega)]
      omega
    rcases State_wcmu s n with hst | hst <;> rw [hst]
    · refine ⟨?_, ?_, rfl, ?_, ?_⟩
      · simp only [WriteChunkMaybeUninit.commit, if_pos hk]
      · show increment s.capacity s.ptail k = increment s.capacity s.tail k
        rw [h.ptail_eq]
      · show increment s.capacity s.ptail
          (WriteChunkMaybeUninit.iterN k ch).iterated =
          increment s.capacity s.tail k
        rw [hiterN, h.ptail_eq]
      · show increment s.capacity s.ptail ch.len =
          increment s.capacity s.tail n
        rw [hlen, h.ptail_eq]
    · refine ⟨?_, ?_, rfl, ?_, ?_⟩
      · simp only [WriteChunkMaybeUninit.commit, if_pos hk]
      · show increment s.capacity s.ptail k = increment s.capacity s.tail k
        rw [h.ptail_eq]
      · show increment s.capacity s.ptail
          (WriteChunkMaybeUninit.iterN k ch).iterated =
          increment s.capacity s.tail k
        rw [hiterN, h.ptail_eq]
      · show increment s.capacity s.ptail ch.len =
          increment s.capacity s.tail n
        rw [hlen, h.ptail_eq]
  · intro n k ch hok hk
    have havail := read_chunk_avail h hok
    obtain ⟨hch, _⟩ := read_chunk_ok_inversion hok
    have hit : ch.iterated = 0 := by rw [hch]; rfl
    have hlen : ch.len = n := by rw [hch]; exact len_mk_read_chunk s n
    have hiterN : (ReadChunk.iterN k ch).iterated = k := by
      rw [iterN_read (by omega)]
      omega
    have hkn : k ≤ n := by omega
    rcases State_read_chunk s n with hst | hst <;> rw [hst]
    · have hdes := read_commit_destroyed h havail hkn
      refine ⟨?_, ?_, rfl, ?_, ?_, ?_, ?_⟩
      · simp only [ReadChunk.commit, if_pos hk]
      · show increment s.capacity s.chead k = increment s.capacity s.head k
        rw [h.chead_eq]
      · show increment s.capacity s.chead (ReadChunk.iterN k ch).iterated =
          increment s.capacity s.head k
        rw [hiterN, h.chead_eq]
      · show increment s.capacity s.chead ch.len =
          increment s.capacity s.head n
        rw [hlen, h.chead_eq]
      · intro i hi
        rw [hch]
        exact hdes.1 i hi
      · intro x hx
        rw [hch]
        exact hdes.2 x hx
    · have h1 : Inv { s with ctail := s.tail } := Inv_refresh_ctail h
      have havail2 : n ≤ distance ({ s with ctail := s.tail } :
          State T).capacity ({ s with ctail := s.tail } : State T).head
          ({ s with ctail := s.tail } : State T).tail := havail
      have hdes := read_commit_destroyed h1 havail2 hkn
      refine ⟨?_, ?_, rfl, ?_, ?_, ?_, ?_⟩
      · simp only [ReadChunk.commit, if_pos hk]
      · show increment s.capacity s.chead k = increment s.capacity s.head k
        rw [h.chead_eq]
      · show increment s.capacity s.chead (ReadChunk.iterN k ch).iterated =
          increment s.capacity s.head k
        rw [hiterN, h.chead_eq]
      · show increment s.capacity s.chead ch.len =
          increment s.capacity s.head n
        rw [hlen, h.chead_eq]
      · intro i hi
        rw [hch]
        exact hdes.1 i hi
      · intro x hx
        rw [hch]
        exact hdes.2 x hx

/-- Witness for C3: committing one slot of a two-slot read chunk on a
concrete two-element queue. -/
theorem C3_commit_advances_witness :
    (ReadChunk.commit_unchecked
      (read_chunk (pushAll (new Nat 2) [4, 6]).1 2).1 ⟨2, 0, 0⟩ 1).head =
      increment 2 (pushAll (new Nat 2) [4, 6]).1.head 1 := by
  have hrep := pushAll_spec [4, 6] (Inv_new Nat 2) (Rep_new Nat 2) (by decide)
  have h := C3_commit_advances (pushAll (new Nat 2) [4, 6]).1 hrep.2.1
  have h2 := (h.2 2 1 ⟨2, 0, 0⟩ (by rfl) (by decide)).2.1
  simpa using h2

/-- C4: dropping a `WriteChunkMaybeUninit`, a `WriteChunk` or a `ReadChunk`
without committing leaves the queue state — `head`, `tail`, and every slot
visible to the peer — exactly as it was before the chunk was requested (for
the plain request the storage is bitwise untouched; the `Default`-filling
`write_chunk` writes only into the not-yet-published chunk region, never
into the filled window `[head, tail)`); no index is advanced. -/
theorem C4_uncommitted_chunk_noop {T : Type} (s : State T) (n : Nat)
    (dflt : T) (h : Inv s) :
    (∀ ch, (write_chunk_maybe_uninit s n).2 = Except.ok ch →
      (write_chunk_maybe_uninit s n).1.head = s.head ∧
      (write_chunk_maybe_uninit s n).1.tail = s.tail ∧
      (write_chunk_maybe_uninit s n).1.data = s.data) ∧
    (∀ ch, (write_chunk s n dflt).2 = Except.ok ch →
      (write_chunk s n dflt).1.head = s.head ∧
      (write_chunk s n dflt).1.tail = s.tail ∧
      (∀ j, j < distance s.capacity s.head s.tail →
        (write_chunk s n dflt).1.data
          (collapse_position s.capacity (increment s.capacity s.head j)) =
        s.data
          (collapse_position s.capacity (increment s.capacity s.head j)))) ∧
    (∀ ch, (read_chunk s n).2 = Except.ok ch →
      (read_chunk s n).1.head = s.head ∧
      (read_chunk s n).1.tail = s.tail ∧
      (read_chunk s n).1.data = s.data) := by
  refine ⟨?_, ?_, ?_⟩
  · intro ch hok
    obtain ⟨_, _, hh, ht, hd, _⟩ := wcmu_ok_inversion hok
    exact ⟨hh, ht, hd⟩
  · intro ch hok
    rcases hwc : write_chunk_maybe_uninit s n with ⟨s1, r⟩
    simp only [write_chunk, hwc] at hok ⊢
    cases r with
    | error e => exact absurd hok (by simp)
    | ok ch0 =>
      have hok2 : (write_chunk_maybe_uninit s n).2 = Except.ok ch0 := by
        rw [hwc]
      have havail := wcmu_avail h hok2
      obtain ⟨hch0, hcap, hhead, htail, hdata, hpt, _⟩ :=
        wcmu_ok_inversion hok2
      rw [hwc] at hcap hhead htail hdata hpt
      have hinv1 : Inv s1 := by
        have := Inv_wcmu n h
        rw [hwc] at this
        exact this
      have hmk : mk_write_chunk s n = mk_write_chunk s1 n := by
        simp only [mk_write_chunk]
        rw [hcap, hpt]
      refine ⟨hhead, htail, ?_⟩
      intro j hj
      have hspec := (write_into_chunk_spec n
        (List.replicate ch0.len dflt) hinv1
        (by
          rw [hcap, hhead, htail]
          omega)).1 j
        (by
          rw [hcap, hhead, htail]
          exact hj)
      rw [hcap, hhead, hdata] at hspec
      rw [hch0, hmk] at hspec ⊢
      exact hspec
  · intro ch hok
    obtain ⟨_, _, hh, ht, hd, _⟩ := read_chunk_ok_inversion hok
    exact ⟨hh, ht, hd⟩

/-- Witness for C4 on a concrete one-element queue. -/
theorem C4_uncommitted_chunk_noop_witness :
    (read_chunk (pushAll (new Nat 3) [8]).1 1).1.head =
      (pushAll (new Nat 3) [8]).1.head := by
  have hrep := pushAll_spec [8] (Inv_new Nat 3) (Rep_new Nat 3) (by decide)
  have h := C4_uncommitted_chunk_noop (pushAll (new Nat 3) [8]).1 1 0
    hrep.2.1
  exact (h.2.2 ⟨1, 0, 0⟩ (by rfl)).1

theorem Rep_bulk_write {T : Type} {s : State T} {l : List T} (n : Nat)
    (vs : List T) {ch : WriteChunkMaybeUninit} (h : Inv s) (hr : Rep s l)
    (hok : (write_chunk_maybe_uninit s n).2 = Except.ok ch)
    (hvs : n ≤ vs.length) :
    Inv (WriteChunkMaybeUninit.commit_unchecked
      (write_into_chunk (write_chunk_maybe_uninit s n).1 ch vs) ch n) ∧
    Rep (WriteChunkMaybeUninit.commit_unchecked
      (write_into_chunk (write_chunk_maybe_uninit s n).1 ch vs) ch n)
      (l ++ vs.take n) := by
  obtain ⟨hch, hcap, hhead, htail, hdata, hpt, hchead, hctail, _, hbound⟩ :=
    wcmu_ok_inversion hok
  have havail := wcmu_avail h hok
  have hinv1 : Inv (write_chunk_maybe_uninit s n).1 := Inv_wcmu n h
  have hL := hr.1
  have hmk : mk_write_chunk s n =
      mk_write_chunk (write_chunk_maybe_uninit s n).1 n := by
    simp only [mk_write_chunk]
    rw [hcap, hpt]
  have hspec := write_into_chunk_spec n vs hinv1
    (by
      rw [hcap, hhead, htail]
      exact havail)
  rw [hcap, hhead, htail, hdata] at hspec
  constructor
  · refine Inv_write_commit ch (Inv_write_into_chunk hinv1) ?_
    show n ≤ (write_chunk_maybe_uninit s n).1.capacity -
      distance (write_chunk_maybe_uninit s n).1.capacity
        (write_chunk_maybe_uninit s n).1.phead
        (write_chunk_maybe_uninit s n).1.tail
    rw [hcap, htail]
    rw [h.ptail_eq] at hbound
    exact hbound
  · constructor
    · show distance (write_chunk_maybe_uninit s n).1.capacity
        (write_chunk_maybe_uninit s n).1.head
        (increment (write_chunk_maybe_uninit s n).1.capacity
          (write_chunk_maybe_uninit s n).1.ptail n) = (l ++ vs.take n).length
      rw [hcap, hhead, hpt, h.ptail_eq, List.length_append, List.length_take]
      rcases Nat.eq_zero_or_pos s.capacity with h0 | hpos
      · obtain ⟨hh1, hh2, _, _⟩ := h.zero h0
        have hd0 : distance s.capacity s.head s.tail = 0 := by
          rw [hh1, hh2]
          simp [distance]
        have hn0 : n = 0 := by omega
        have hinc : increment s.capacity s.tail 0 = s.tail := by
          rw [hh2, h0]
          simp [increment]
        rw [hn0, hinc]
        omega
      · have hhl := h.head_lt hpos
        have htl := h.tail_lt hpos
        rw [distance_increment_right s.capacity s.head s.tail n hhl htl
          (by omega) (by omega)]
        omega
    · intro j hj
      rw [List.length_append, List.length_take] at hj
      show (write_into_chunk (write_chunk_maybe_uninit s n).1 ch vs).data
        (collapse_position (write_chunk_maybe_uninit s n).1.capacity
          (increment (write_chunk_maybe_uninit s n).1.capacity
            (write_chunk_maybe_uninit s n).1.head j)) = (l ++ vs.take n)[j]?
      rw [hcap, hhead, hch, hmk]
      rcases Nat.eq_zero_or_pos s.capacity with h0 | hpos
      · exact absurd hj (by omega)
      · have hhl := h.head_lt hpos
        have htl := h.tail_lt hpos
        have hdle := h.dist_le
        rcases Nat.lt_or_ge j l.length with hjl | hjl
        · rw [hspec.1 j (by omega), hr.2 j hjl,
            List.getElem?_append_left hjl]
        · have ht2 : increment s.capacity s.head l.length = s.tail := by
            rw [← hL]
            exact increment_of_distance s.capacity s.head s.tail hhl htl
              hdle
          rw [show j = l.length + (j - l.length) from by omega,
            ← increment_increment s.capacity s.head l.length (j - l.length)
              hhl (by omega),
            ht2, hspec.2 (j - l.length) (by omega),
            List.getElem?_append_right (by omega), List.getElem?_take,
            if_pos (by omega), Nat.add_sub_cancel_left]

/-! ### Reduction lemmas for the byte-stream adapters -/

theorem io_write_ok_eq (s : State Byte) (buf : List Byte) (s1 : State Byte)
    (ch : WriteChunkMaybeUninit)
    (hwc : write_chunk_maybe_uninit s buf.length = (s1, Except.ok ch)) :
    io_write s buf =
      (WriteChunkMaybeUninit.commit_all (write_into_chunk s1 ch buf) ch,
        Except.ok ch.len) := by
  simp only [io_write]
  rw [hwc]

theorem io_write_retry_eq (s : State Byte) (buf : List Byte)
    (s1 : State Byte) (m : Nat)
    (hwc : write_chunk_maybe_uninit s buf.length =
      (s1, Except.error (ChunkError.TooFewSlots m)))
    (hm : 0 < m) (s2 : State Byte) (ch : WriteChunkMaybeUninit)
    (hwc2 : write_chunk_maybe_uninit s1 m = (s2, Except.ok ch)) :
    io_write s buf =
      (WriteChunkMaybeUninit.commit_all (write_into_chunk s2 ch buf) ch,
        Except.ok ch.len) := by
  simp only [io_write]
  rw [hwc]
  show (if 0 < m then
      match write_chunk_maybe_uninit s1 m with
      | (s1, Except.ok ch) =>
        (WriteChunkMaybeUninit.commit_all (write_into_chunk s1 ch buf) ch,
          Except.ok ch.len)
      | (s2, Except.error a) => (s2, Except.error IoError.wouldBlock)
    else (s1, Except.error IoError.wouldBlock)) = _
  rw [if_pos hm, hwc2]

theorem io_write_block_eq (s : State Byte) (buf : List Byte)
    (s1 : State Byte)
    (hwc : write_chunk_maybe_uninit s buf.length =
      (s1, Except.error (ChunkError.TooFewSlots 0))) :
    io_write s buf = (s1, Except.error IoError.wouldBlock) := by
  simp only [io_write]
  rw [hwc]
  show (if 0 < 0 then
      match write_chunk_maybe_uninit s1 0 with
      | (s1, Except.ok ch) =>
        (WriteChunkMaybeUninit.commit_all (write_into_chunk s1 ch buf) ch,
          Except.ok ch.len)
      | (s2, Except.error a) => (s2, Except.error IoError.wouldBlock)
    else (s1, Except.error IoError.wouldBlock)) = _
  rw [if_neg (by decide)]

theorem io_read_ok_eq (s : State Byte) (len : Nat) (s1 : State Byte)
    (ch : ReadChunk) (hrc : read_chunk s len = (s1, Except.ok ch)) :
    io_read s len =
      (ReadChunk.commit_all s1 ch,
        Except.ok ((ch.as_slices s1).1 ++ (ch.as_slices s1).2)) := by
  simp only [io_read]
  rw [hrc]

theorem io_read_retry_eq (s : State Byte) (len : Nat) (s1 : State Byte)
    (m : Nat)
    (hrc : read_chunk s len = (s1, Except.error (ChunkError.TooFewSlots m)))
    (hm : 0 < m) (s2 : State Byte) (ch : ReadChunk)
    (hrc2 : read_chunk s1 m = (s2, Except.ok ch)) :
    io_read s len =
      (ReadChunk.commit_all s2 ch,
        Except.ok ((ch.as_slices s2).1 ++ (ch.as_slices s2).2)) := by
  simp only [io_read]
  rw [hrc]
  show (if 0 < m then
      match read_chunk s1 m with
      | (s2, Except.ok ch) =>
        (ReadChunk.commit_all s2 ch,
          Except.ok ((ch.as_slices s2).1 ++ (ch.as_slices s2).2))
      | (s2, Except.error a) => (s2, Except.error IoError.wouldBlock)
    else (s1, Except.error IoError.wouldBlock)) = _
  rw [if_pos hm, hrc2]

theorem io_read_block_eq (s : State Byte) (len : Nat) (s1 : State Byte)
    (hrc : read_chunk s len =
      (s1, Except.error (ChunkError.TooFewSlots 0))) :
    io_read s len = (s1, Except.error IoError.wouldBlock) := by
  simp only [io_read]
  rw [hrc]
  show (if 0 < 0 then
      match read_chunk s1 0 with
      | (s2, Except.ok ch) =>
        (ReadChunk.commit_all s2 ch,
          Except.ok ((ch.as_slices s2).1 ++ (ch.as_slices s2).2))
      | (s2, Except.error a) => (s2, Except.error IoError.wouldBlock)
    else (s1, Except.error IoError.wouldBlock)) = _
  rw [if_neg (by decide)]

/-- C9: the `u8` bulk adapters.  With `a` the number of free slots (for the
producer) resp. available elements (for the consumer) after refreshing:
a bulk write of `buf` appends the first `min a buf.length` bytes of `buf` in
order and returns that count when it is positive or `buf` fits, and returns
a would-block error leaving the queue untouched when `a = 0` and `buf` is
nonempty; a bulk read of a `len`-byte buffer removes and returns the first
`min a len` queued bytes in FIFO order, and would-block on an empty queue
when `len > 0`. -/
theorem C9_byte_stream_adapters (s : State Byte) (l : List Byte)
    (h : Inv s) (hr : Rep s l) :
    (∀ buf : List Byte,
      (0 < s.capacity - l.length → s.capacity - l.length < buf.length →
        (io_write s buf).2 = Except.ok (s.capacity - l.length) ∧
        Inv (io_write s buf).1 ∧
        Rep (io_write s buf).1 (l ++ buf.take (s.capacity - l.length))) ∧
      (buf.length ≤ s.capacity - l.length →
        (io_write s buf).2 = Except.ok buf.length ∧
        Inv (io_write s buf).1 ∧
        Rep (io_write s buf).1 (l ++ buf)) ∧
      (s.capacity - l.length = 0 → buf ≠ [] →
        (io_write s buf).2 = Except.error IoError.wouldBlock ∧
        (io_write s buf).1.head = s.head ∧
        (io_write s buf).1.tail = s.tail ∧
        (io_write s buf).1.data = s.data)) ∧
    (∀ len : Nat,
      (0 < l.length → l.length < len →
        (io_read s len).2 = Except.ok ((l.take l.length).map some) ∧
        Inv (io_read s len).1 ∧ Rep (io_read s len).1 (l.drop l.length)) ∧
      (len ≤ l.length →
        (io_read s len).2 = Except.ok ((l.take len).map some) ∧
        Inv (io_read s len).1 ∧ Rep (io_read s len).1 (l.drop len)) ∧
      (l.length = 0 → 0 < len →
        (io_read s len).2 = Except.error IoError.wouldBlock ∧
        (io_read s len).1.head = s.head ∧
        (io_read s len).1.tail = s.tail ∧
        (io_read s len).1.data = s.data)) := by
  have hL := hr.1
  constructor
  · intro buf
    refine ⟨?_, ?_, ?_⟩
    · -- short write of the a available slots
      intro ha hlt
      rcases hwc : write_chunk_maybe_uninit s buf.length with ⟨s1, r⟩
      cases r with
      | ok ch =>
        have := wcmu_avail h
          (show (write_chunk_maybe_uninit s buf.length).2 = Except.ok ch by
            rw [hwc])
        exact absurd hlt (by omega)
      | error e =>
        obtain ⟨hm, hlt2, hst⟩ := wcmu_error_inversion
          (show (write_chunk_maybe_uninit s buf.length).2 = Except.error e by
            rw [hwc])
        subst hm
        have hs1 : s1 = { s with phead := s.head } := by
          rw [← hst, hwc]
        subst hs1
        have hA : s.capacity - distance s.capacity s.head s.ptail =
            s.capacity - l.length := by
          rw [h.ptail_eq, hL]
        rw [hA] at hwc
        have hwc2 : write_chunk_maybe_uninit { s with phead := s.head }
            (s.capacity - l.length) =
            ({ s with phead := s.head },
              Except.ok (mk_write_chunk { s with phead := s.head }
                (s.capacity - l.length))) := by
          simp only [write_chunk_maybe_uninit]
          rw [if_neg]
          intro hcond
          rw [h.ptail_eq, hL] at hcond
          omega
        have hio := io_write_retry_eq s buf { s with phead := s.head }
          (s.capacity - l.length) hwc ha { s with phead := s.head }
          (mk_write_chunk { s with phead := s.head }
            (s.capacity - l.length)) hwc2
        have hrσ : Rep { s with phead := s.head } l := hr
        have hbw := Rep_bulk_write (s := { s with phead := s.head })
          (s.capacity - l.length) buf (Inv_refresh_phead h) hrσ
          (by rw [hwc2]) (by omega)
        have hfst2 : (write_chunk_maybe_uninit { s with phead := s.head }
            (s.capacity - l.length)).1 = { s with phead := s.head } := by
          rw [hwc2]
        rw [hfst2] at hbw
        have hlen2 : (mk_write_chunk { s with phead := s.head }
            (s.capacity - l.length)).len = s.capacity - l.length :=
          len_mk_write_chunk { s with phead := s.head }
            (s.capacity - l.length)
        refine ⟨?_, ?_, ?_⟩
        · rw [hio]
          show Except.ok (mk_write_chunk { s with phead := s.head }
            (s.capacity - l.length)).len = Except.ok (s.capacity - l.length)
          rw [hlen2]
        · rw [hio]
          show Inv (WriteChunkMaybeUninit.commit_unchecked
            (write_into_chunk { s with phead := s.head }
              (mk_write_chunk { s with phead := s.head }
                (s.capacity - l.length)) buf)
            (mk_write_chunk { s with phead := s.head }
              (s.capacity - l.length))
            (mk_write_chunk { s with phead := s.head }
              (s.capacity - l.length)).len)
          rw [hlen2]
          exact hbw.1
        · rw [hio]
          show Rep (WriteChunkMaybeUninit.commit_unchecked
            (write_into_chunk { s with phead := s.head }
              (mk_write_chunk { s with phead := s.head }
                (s.capacity - l.length)) buf)
            (mk_write_chunk { s with phead := s.head }
              (s.capacity - l.length))
            (mk_write_chunk { s with phead := s.head }
              (s.capacity - l.length)).len)
            (l ++ buf.take (s.capacity - l.length))
          rw [hlen2]
          exact hbw.2
    · -- the whole buffer fits
      intro hle
      rcases hwc : write_chunk_maybe_uninit s buf.length with ⟨s1, r⟩
      cases r with
      | error e =>
        obtain ⟨hm, hlt2, hst⟩ := wcmu_error_inversion
          (show (write_chunk_maybe_uninit s buf.length).2 = Except.error e by
            rw [hwc])
        rw [h.ptail_eq, hL] at hlt2
        exact absurd hle (by omega)
      | ok ch =>
        have hok2 : (write_chunk_maybe_uninit s buf.length).2 =
            Except.ok ch := by rw [hwc]
        obtain ⟨hch, _⟩ := wcmu_ok_inversion hok2
        have hlen : ch.len = buf.length := by
          rw [hch]
          exact len_mk_write_chunk s buf.length
        have hio := io_write_ok_eq s buf s1 ch hwc
        have hbw := Rep_bulk_write buf.length buf h hr hok2 (le_refl _)
        have hfst : (write_chunk_maybe_uninit s buf.length).1 = s1 := by
          rw [hwc]
        rw [hfst] at hbw
        rw [List.take_length] at hbw
        refine ⟨?_, ?_, ?_⟩
        · rw [hio]
          show Except.ok ch.len = Except.ok buf.length
          rw [hlen]
        · rw [hio]
          show Inv (WriteChunkMaybeUninit.commit_unchecked
            (write_into_chunk s1 ch buf) ch ch.len)
          rw [hlen]
          exact hbw.1
        · rw [hio]
          show Rep (WriteChunkMaybeUninit.commit_unchecked
            (write_into_chunk s1 ch buf) ch ch.len) (l ++ buf)
          rw [hlen]
          exact hbw.2
    · -- queue full: would-block
      intro ha hne
      have hbufpos : 0 < buf.length := by
        cases buf with
        | nil => exact absurd rfl hne
        | cons b bs => simp
      rcases hwc : write_chunk_maybe_uninit s buf.length with ⟨s1, r⟩
      cases r with
      | ok ch =>
        have := wcmu_avail h
          (show (write_chunk_maybe_uninit s buf.length).2 = Except.ok ch by
            rw [hwc])
        exact absurd hbufpos (by omega)
      | error e =>
        obtain ⟨hm, hlt2, hst⟩ := wcmu_error_inversion
          (show (write_chunk_maybe_uninit s buf.length).2 = Except.error e by
            rw [hwc])
        subst hm
        have hs1 : s1 = { s with phead := s.head } := by
          rw [← hst, hwc]
        subst hs1
        have hA0 : s.capacity - distance s.capacity s.head s.ptail = 0 := by
          rw [h.ptail_eq, hL]
          omega
        rw [hA0] at hwc
        have hio := io_write_block_eq s buf { s with phead := s.head } hwc
        rw [hio]
        exact ⟨rfl, rfl, rfl, rfl⟩
  · intro len
    refine ⟨?_, ?_, ?_⟩
    · -- short read of everything in the queue
      intro hb hlt
      rcases hrc : read_chunk s len with ⟨s1, r⟩
      cases r with
      | ok ch =>
        have := read_chunk_avail h
          (show (read_chunk s len).2 = Except.ok ch by rw [hrc])
        exact absurd hlt (by omega)
      | error e =>
        obtain ⟨hm, hlt2, hst⟩ := read_chunk_error_inversion
          (show (read_chunk s len).2 = Except.error e by rw [hrc])
        subst hm
        have hs1 : s1 = { s with ctail := s.tail } := by
          rw [← hst, hrc]
        subst hs1
        have hB : distance s.capacity s.chead s.tail = l.length := by
          rw [h.chead_eq, hL]
        rw [hB] at hrc
        have hrc2 : read_chunk { s with ctail := s.tail } l.length =
            ({ s with ctail := s.tail },
              Except.ok (mk_read_chunk { s with ctail := s.tail }
                l.length)) := by
          simp only [read_chunk]
          rw [if_neg]
          intro hcond
          rw [h.chead_eq, hL] at hcond
          omega
        have hio := io_read_retry_eq s len { s with ctail := s.tail }
          l.length hrc hb { s with ctail := s.tail }
          (mk_read_chunk { s with ctail := s.tail } l.length) hrc2
        have hrσ : Rep { s with ctail := s.tail } l := hr
        have hinvσ := Inv_refresh_ctail h
        have hasl := as_slices_spec hinvσ hrσ (le_refl l.length)
        have hrrc := Rep_read_commit hinvσ hrσ (le_refl l.length)
          (le_refl l.length)
        have hlen2 : (mk_read_chunk { s with ctail := s.tail }
            l.length).len = l.length :=
          len_mk_read_chunk { s with ctail := s.tail } l.length
        refine ⟨?_, ?_, ?_⟩
        · rw [hio]
          exact congrArg Except.ok hasl
        · rw [hio]
          show Inv (ReadChunk.commit_unchecked { s with ctail := s.tail }
            (mk_read_chunk { s with ctail := s.tail } l.length)
            (mk_read_chunk { s with ctail := s.tail } l.length).len)
          rw [hlen2]
          refine Inv_read_commit (mk_read_chunk { s with ctail := s.tail }
            l.length) hinvσ ?_
          show l.length ≤ distance s.capacity s.head s.tail
          omega
        · rw [hio]
          show Rep (ReadChunk.commit_unchecked { s with ctail := s.tail }
            (mk_read_chunk { s with ctail := s.tail } l.length)
            (mk_read_chunk { s with ctail := s.tail } l.length).len)
            (l.drop l.length)
          rw [hlen2]
          exact hrrc
    · -- the whole request is available
      intro hle
      rcases hrc : read_chunk s len with ⟨s1, r⟩
      cases r with
      | error e =>
        obtain ⟨hm, hlt2, hst⟩ := read_chunk_error_inversion
          (show (read_chunk s len).2 = Except.error e by rw [hrc])
        rw [h.chead_eq, hL] at hlt2
        exact absurd hle (by omega)
      | ok ch =>
        have hok2 : (read_chunk s len).2 = Except.ok ch := by rw [hrc]
        have havail := read_chunk_avail h hok2
        obtain ⟨hch, hcap, hhead, htail, hdata, hpt, hchead, hphead, hctail,
          hbound⟩ := read_chunk_ok_inversion hok2
        have hlen : ch.len = len := by
          rw [hch]
          exact len_mk_read_chunk s len
        have hio := io_read_ok_eq s len s1 ch hrc
        have hst := State_read_chunk s len
        rw [hrc] at hst
        have hst2 : s1 = s ∨ s1 = { s with ctail := s.tail } := hst
        rcases hst2 with h1 | h1
        · rw [h1] at hio
          have hasl := as_slices_spec h hr hle
          have hrrc := Rep_read_commit h hr hle (le_refl len)
          refine ⟨?_, ?_, ?_⟩
          · rw [hio, hch]
            exact congrArg Except.ok hasl
          · rw [hio]
            show Inv (ReadChunk.commit_unchecked s ch ch.len)
            rw [hlen, hch]
            refine Inv_read_commit (mk_read_chunk s len) h ?_
            have hb2 : len ≤ distance s.capacity s.chead s.ctail := by
              rw [hrc, h1] at hbound
              exact hbound
            rw [h.chead_eq] at hb2
            exact hb2
          · rw [hio]
            show Rep (ReadChunk.commit_unchecked s ch ch.len) (l.drop len)
            rw [hlen, hch]
            exact hrrc
        · subst h1
          have hinvσ := Inv_refresh_ctail h
          have hrσ : Rep { s with ctail := s.tail } l := hr
          have hasl := as_slices_spec hinvσ hrσ hle
          have hrrc := Rep_read_commit hinvσ hrσ hle (le_refl len)
          refine ⟨?_, ?_, ?_⟩
          · rw [hio, hch]
            exact congrArg Except.ok hasl
          · rw [hio]
            show Inv (ReadChunk.commit_unchecked { s with ctail := s.tail }
              ch ch.len)
            rw [hlen, hch]
            refine Inv_read_commit (mk_read_chunk s len) hinvσ ?_
            show len ≤ distance s.capacity s.head s.tail
            omega
          · rw [hio]
            show Rep (ReadChunk.commit_unchecked { s with ctail := s.tail }
              ch ch.len) (l.drop len)
            rw [hlen, hch]
            exact hrrc
    · -- queue empty: would-block
      intro hb hlenpos
      rcases hrc : read_chunk s len with ⟨s1, r⟩
      cases r with
      | ok ch =>
        have := read_chunk_avail h
          (show (read_chunk s len).2 = Except.ok ch by rw [hrc])
        exact absurd hlenpos (by omega)
      | error e =>
        obtain ⟨hm, hlt2, hst⟩ := read_chunk_error_inversion
          (show (read_chunk s len).2 = Except.error e by rw [hrc])
        subst hm
        have hs1 : s1 = { s with ctail := s.tail } := by
          rw [← hst, hrc]
        subst hs1
        have hB0 : distance s.capacity s.chead s.tail = 0 := by
          rw [h.chead_eq, hL]
          omega
        rw [hB0] at hrc
        have hio := io_read_block_eq s len { s with ctail := s.tail } hrc
        rw [hio]
        exact ⟨rfl, rfl, rfl, rfl⟩

/-- Witness for C9: with capacity 4 and an empty queue, a bulk write of 6
bytes writes 4 and returns 4 (spec scenario 5). -/
theorem C9_byte_stream_adapters_witness :
    (io_write (new Byte 4) [1, 2, 3, 4, 5, 6]).2 = Except.ok 4 := by
  have h := (C9_byte_stream_adapters (new Byte 4) [] (Inv_new Byte 4)
    (Rep_new Byte 4)).1 [1, 2, 3, 4, 5, 6]
  exact (h.1 (by decide) (by decide)).1

end Rtrb
